import Mathlib

/-!
# sentencepiece-go: a shallow embedding of `main.go`

The three operations of the repository are embedded as Lean functions:

* `TrainUnigramModel` (main.go 43-94),
* `EncodeText` (main.go 97-132),
* `DecodeTokens` (main.go 135-149).

Conventions of the embedding.

* A Go `string` is its sequence of bytes, `List Nat` (each element a byte value).  `len`,
  slicing and `strings.HasPrefix` all work on bytes in Go, and so do they here.
* A Go `int` is an `Int`; the one subtraction that can leave the 64-bit range
  (`vocabSize-1`) wraps explicitly (`wrapInt64`).
* `float64` arithmetic is not interpreted: the operations the trainer uses are fields of
  `Runtime`, so every theorem holds whatever the floating-point results are.
* The iteration order of a Go map and the permutation `sort.Slice` produces are not fixed by
  the language; both are fields of `Runtime` as well, constrained to return a rearrangement
  of their input.
* A run ends in `Run.done v`, in `Run.panic` (a Go run-time panic) or in `Run.timeout`
  (the loop counter of the embedding ran out; shown never to happen).
-/

namespace SentencePiece

/-! ## Data model -/

/-- A Go string, as its bytes. -/
abbrev GoString := List Nat

/-- The literal `"<unk>"`: bytes `<`, `u`, `n`, `k`, `>`. -/
def unkPiece : GoString := [60, 117, 110, 107, 62]

/-- The struct `Subword` (main.go 15-19); `F` stands for `float64`. -/
structure Subword (F : Type) where
  ID : Int
  Piece : GoString
  Probability : F
  deriving DecidableEq, Repr

/-- Outcome of running a Go function. -/
inductive Run (α : Type) where
  | done : α → Run α
  | panic : Run α
  | timeout : Run α
  deriving DecidableEq, Repr

/-- Post-process the value of a finished run. -/
def Run.map {α β : Type} (f : α → β) : Run α → Run β
  | Run.done a => Run.done (f a)
  | Run.panic => Run.panic
  | Run.timeout => Run.timeout

/-! ## Go maps

A map is kept as an association list with pairwise distinct keys. -/

/-- The assignment `m[k] = v` of Go. -/
def mapSet {κ ν : Type} [DecidableEq κ] : List (κ × ν) → κ → ν → List (κ × ν)
  | [], k, v => [(k, v)]
  | (k', v') :: rest, k, v =>
    if k' = k then (k', v) :: rest else (k', v') :: mapSet rest k v

/-- The lookup `v, found := m[k]` of Go. -/
def mapGet? {κ ν : Type} [DecidableEq κ] : List (κ × ν) → κ → Option ν
  | [], _ => none
  | (k', v') :: rest, k => if k' = k then some v' else mapGet? rest k

/-! ## EncodeText (main.go 97-132) -/

/-- The first loop of `EncodeText` (main.go 103-109), as far as `unkID` goes: start from
`-1`, and every entry whose piece is `"<unk>"` overwrites it with its ID.  (The map
`pieceToID` filled by the same loop is never read.) -/
def unkIDOf {F : Type} (vocab : List (Subword F)) : Int :=
  vocab.foldl (fun unkID subword => if subword.Piece = unkPiece then subword.ID else unkID) (-1)

/-- The three locals `match`, `matchID`, `matchLength` of the scan. -/
structure Match where
  matchPiece : GoString
  matchID : Int
  matchLength : Nat
  deriving DecidableEq, Repr

/-- One iteration of the inner loop (main.go 118-124). -/
def scanStep {F : Type} (remaining : GoString) (m : Match) (subword : Subword F) : Match :=
  if subword.Piece.isPrefixOf remaining then
    if subword.Piece.length > m.matchPiece.length then
      ⟨subword.Piece, subword.ID, subword.Piece.length⟩
    else m
  else m

/-- The inner loop (main.go 112-125), started from `match = ""`, `matchID = unkID`,
`matchLength = 1`. -/
def longestMatch {F : Type} (vocab : List (Subword F)) (unkID : Int) (remaining : GoString) :
    Match :=
  vocab.foldl (scanStep remaining) ⟨[], unkID, 1⟩

/-- The outer loop (main.go 111-129).  The first argument bounds the number of iterations.
The slice expression `remaining[matchLength:]` panics when `matchLength > len(remaining)`. -/
def encodeLoop {F : Type} (vocab : List (Subword F)) (unkID : Int) :
    Nat → GoString → Run (List Int)
  | _, [] => Run.done []
  | 0, _ :: _ => Run.timeout
  | fuel + 1, c :: cs =>
    let m := longestMatch vocab unkID (c :: cs)
    if m.matchLength ≤ (c :: cs).length then
      (encodeLoop vocab unkID fuel ((c :: cs).drop m.matchLength)).map (m.matchID :: ·)
    else Run.panic

/-- `EncodeText` (main.go 97-132).  Every iteration consumes at least one byte, so
`len(text)` iterations are enough. -/
def EncodeText {F : Type} (text : GoString) (vocab : List (Subword F)) : Run (List Int) :=
  encodeLoop vocab (unkIDOf vocab) text.length text

/-! ## DecodeTokens (main.go 135-149) -/

/-- The map `idToSubword` (main.go 136-139). -/
def idToSubword {F : Type} (vocab : List (Subword F)) : List (Int × GoString) :=
  vocab.foldl (fun m subword => mapSet m subword.ID subword.Piece) []

/-- The slice `words` (main.go 141-146). -/
def decodeWords (m : List (Int × GoString)) (tokenIDs : List Int) : List GoString :=
  tokenIDs.foldl
    (fun words id => match mapGet? m id with
      | some word => words ++ [word]
      | none => words) []

/-- `DecodeTokens` (main.go 135-149); `strings.Join(words, "")` is plain concatenation. -/
def DecodeTokens {F : Type} (tokenIDs : List Int) (vocab : List (Subword F)) : GoString :=
  (decodeWords (idToSubword vocab) tokenIDs).flatten

/-! ## TrainUnigramModel (main.go 43-94) -/

/-- What the Go run time and the standard library leave open, and the `float64` operations
the trainer uses.  `ofInt` is the conversion `float64(n)` (also of the constants `0.0` and
`2`), `unkProbability` is the constant `0.001`; `rangeOrder` is the order in which
`for ... range` visits a map; `sortSlice less` is `sort.Slice` with the given comparison of
two elements.  Both rearrange their input and nothing more. -/
structure Runtime (F : Type) where
  ofInt : Int → F
  add : F → F → F
  div : F → F → F
  lt : F → F → Bool
  unkProbability : F
  rangeOrder : List (GoString × Int) → List (GoString × Int)
  rangeOrder_perm : ∀ m, (rangeOrder m).Perm m
  sortSlice : (Subword F → Subword F → Bool) → List (Subword F) → List (Subword F)
  sortSlice_perm : ∀ less l, (sortSlice less l).Perm l

/-- `strings.Split(sentence, " ")`: the substrings between the space bytes (32); a sentence
with `n` spaces gives `n + 1` words, the empty sentence gives one empty word. -/
def splitSpace : GoString → List GoString
  | [] => [[]]
  | c :: cs =>
    if c = 32 then [] :: splitSpace cs
    else
      match splitSpace cs with
      | [] => [[c]]
      | w :: ws => (c :: w) :: ws

/-- The statement `wordCounts[word]++` (main.go 50); a missing key reads as 0. -/
def countWord (wordCounts : List (GoString × Int)) (word : GoString) : List (GoString × Int) :=
  mapSet wordCounts word ((mapGet? wordCounts word).getD 0 + 1)

/-- The counting loops (main.go 44-52). -/
def countWords (corpus : List GoString) : List (GoString × Int) :=
  corpus.foldl (fun wordCounts sentence => (splitSpace sentence).foldl countWord wordCounts) []

/-- The initial vocabulary (main.go 55-58): one entry per key of the map, in the order the
map is visited, with `ID` left at its zero value. -/
def initVocab {F : Type} (rt : Runtime F) (wordCounts : List (GoString × Int)) :
    List (Subword F) :=
  (rt.rangeOrder wordCounts).map (fun wc => ⟨0, wc.1, rt.ofInt wc.2⟩)

/-- Normalisation (main.go 61-67). -/
def normalize {F : Type} (rt : Runtime F) (vocab : List (Subword F)) : List (Subword F) :=
  let total := vocab.foldl (fun total v => rt.add total v.Probability) (rt.ofInt 0)
  vocab.map (fun v => { v with Probability := rt.div v.Probability total })

/-- The value of `total` when the division starts (main.go 61-64). -/
def totalProbability {F : Type} (rt : Runtime F) (vocab : List (Subword F)) : F :=
  vocab.foldl (fun total v => rt.add total v.Probability) (rt.ofInt 0)

/-- Two's-complement wrap-around of a 64-bit `int`. -/
def wrapInt64 (x : Int) : Int := (x + 2 ^ 63) % 2 ^ 64 - 2 ^ 63

/-- The piece built by one merge (main.go 78-82). -/
def mergePieces {F : Type} (rt : Runtime F) (a b : Subword F) : Subword F :=
  ⟨0, a.Piece ++ b.Piece, rt.div (rt.add a.Probability b.Probability) (rt.ofInt 2)⟩

/-- The merge loop (main.go 71-83), `limit` being the value of `vocabSize-1`.  The first
argument bounds the number of iterations.  Reading `vocab[0]` or `vocab[1]` of a slice
shorter than two panics. -/
def mergeLoop {F : Type} (rt : Runtime F) (limit : Int) :
    Nat → List (Subword F) → Run (List (Subword F))
  | 0, vocab => if (vocab.length : Int) > limit then Run.timeout else Run.done vocab
  | fuel + 1, vocab =>
    if (vocab.length : Int) > limit then
      match rt.sortSlice (fun a b => rt.lt a.Probability b.Probability) vocab with
      | a :: b :: rest => mergeLoop rt limit fuel (rest ++ [mergePieces rt a b])
      | _ => Run.panic
    else Run.done vocab

/-- The body of the merge loop (main.go 72-82), one iteration on the working set `vocab`:
sort, then replace the first two pieces by their merge, appended at the end. -/
def mergeStep {F : Type} (rt : Runtime F) (vocab : List (Subword F)) :
    Run (List (Subword F)) :=
  match rt.sortSlice (fun a b => rt.lt a.Probability b.Probability) vocab with
  | a :: b :: rest => Run.done (rest ++ [mergePieces rt a b])
  | _ => Run.panic

/-- The ID assignment (main.go 89-91), counting from `i`. -/
def assignIDs {F : Type} : Nat → List (Subword F) → List (Subword F)
  | _, [] => []
  | i, s :: rest => { s with ID := (i : Int) } :: assignIDs (i + 1) rest

/-- `TrainUnigramModel` (main.go 43-94).  Every iteration of the merge loop that does not
panic shortens the vocabulary by one, so `len(vocab) + 1` iterations are enough. -/
def TrainUnigramModel {F : Type} (rt : Runtime F) (corpus : List GoString) (vocabSize : Int) :
    Run (List (Subword F)) :=
  let vocab := normalize rt (initVocab rt (countWords corpus))
  (mergeLoop rt (wrapInt64 (vocabSize - 1)) (vocab.length + 1) vocab).map
    (fun vocab => assignIDs 0 (vocab ++ [⟨0, unkPiece, rt.unkProbability⟩]))

/-- A fraction `num / den`, not reduced; the number type of `exactRuntime`. -/
structure Frac where
  num : Int
  den : Nat
  deriving DecidableEq, Repr

/-- A runtime to run the trainer on concrete inputs: exact arithmetic on fractions, the map
visited in insertion order, and an insertion sort. -/
def exactRuntime : Runtime Frac where
  ofInt := fun n => ⟨n, 1⟩
  add := fun a b => ⟨a.num * b.den + b.num * a.den, a.den * b.den⟩
  div := fun a b => ⟨a.num * b.den * b.num.sign, a.den * b.num.natAbs⟩
  lt := fun a b => decide (a.num * b.den < b.num * a.den)
  unkProbability := ⟨1, 1000⟩
  rangeOrder := fun m => m
  rangeOrder_perm := fun _ => List.Perm.refl _
  sortSlice := fun less l => l.insertionSort (fun a b => less b a = false)
  sortSlice_perm := fun _ l => List.perm_insertionSort _ l

/-- The runtime `exactRuntime` with the map visited in the reverse order. -/
def reverseRuntime : Runtime Frac where
  ofInt := exactRuntime.ofInt
  add := exactRuntime.add
  div := exactRuntime.div
  lt := exactRuntime.lt
  unkProbability := exactRuntime.unkProbability
  rangeOrder := fun m => m.reverse
  rangeOrder_perm := fun m => List.reverse_perm m
  sortSlice := exactRuntime.sortSlice
  sortSlice_perm := exactRuntime.sortSlice_perm

/-- A runtime over the rational numbers, with the arithmetic of `ℚ`. -/
def ratRuntime : Runtime ℚ where
  ofInt := fun n => (n : ℚ)
  add := fun a b => a + b
  div := fun a b => a / b
  lt := fun a b => decide (a < b)
  unkProbability := 1 / 1000
  rangeOrder := fun m => m
  rangeOrder_perm := fun _ => List.Perm.refl _
  sortSlice := fun less l => l.insertionSort (fun a b => less b a = false)
  sortSlice_perm := fun _ l => List.perm_insertionSort _ l

/-- The arithmetic of a runtime over `ℚ` is exact: conversion, sum and quotient are those
of the rational numbers. -/
def ExactArith (rt : Runtime ℚ) : Prop :=
  (∀ n : Int, rt.ofInt n = (n : ℚ)) ∧ (∀ a b : ℚ, rt.add a b = a + b) ∧
    (∀ a b : ℚ, rt.div a b = a / b)

/-- The comparison handed to `sort.Slice` (main.go 73-75), on two elements. -/
def lessProbability {F : Type} (rt : Runtime F) (a b : Subword F) : Bool :=
  rt.lt a.Probability b.Probability

/-- Two runtimes with the same arithmetic: the same conversion, sum, quotient and constant
`0.001`.  They may differ in the map iteration order and in the sort. -/
def SameArith {F : Type} (rt₁ rt₂ : Runtime F) : Prop :=
  rt₁.ofInt = rt₂.ofInt ∧ rt₁.add = rt₂.add ∧ rt₁.div = rt₂.div ∧
    rt₁.unkProbability = rt₂.unkProbability

/-- The comparison `less` is a strict weak order on the elements of `l`: it is asymmetric,
and "not below" is transitive.  (The `<` of `float64` is one on every list without NaN.) -/
def StrictWeakOn {α : Type} (less : α → α → Bool) (l : List α) : Prop :=
  (∀ a ∈ l, ∀ b ∈ l, less a b = true → less b a = false) ∧
  (∀ a ∈ l, ∀ b ∈ l, ∀ c ∈ l, less b a = false → less c b = false → less c a = false)

/-- The contract of `sort.Slice`: whenever `less` is a strict weak order on the elements of
the slice, no element of the result is below an earlier one. -/
def SortContract {F : Type} (rt : Runtime F) : Prop :=
  ∀ (less : Subword F → Subword F → Bool) (l : List (Subword F)), StrictWeakOn less l →
    (rt.sortSlice less l).Pairwise (fun a b => less b a = false)

/-- The normalised initial vocabulary of the corpus `["a a b c"]` on the exact runtime:
`a` (2/4), `b` (1/4), `c` (1/4). -/
def aabcPieces : List (Subword Frac) :=
  [⟨0, [97], ⟨2, 4⟩⟩, ⟨0, [98], ⟨1, 4⟩⟩, ⟨0, [99], ⟨1, 4⟩⟩]

/-! ## Specification-side notions -/

/-- The word occurrences of a corpus: every line split on single spaces. -/
def corpusWords (corpus : List GoString) : List GoString :=
  corpus.flatMap splitSpace

/-- Entry `e`, at position `i` of the vocabulary, is the first one, in vocabulary order, among
the entries whose piece is a prefix of `text` with the greatest piece length. -/
def IsFirstLongestPrefix {F : Type} (vocab : List (Subword F)) (text : GoString) (i : Nat)
    (e : Subword F) : Prop :=
  vocab[i]? = some e ∧ e.Piece <+: text ∧
  (∀ (j : Nat) (e' : Subword F), vocab[j]? = some e' → e'.Piece <+: text →
    e'.Piece.length ≤ e.Piece.length) ∧
  (∀ (j : Nat) (e' : Subword F), j < i → vocab[j]? = some e' → e'.Piece <+: text →
    e'.Piece.length < e.Piece.length)

/-- Entry `e`, at position `i`, is the last entry of the vocabulary whose piece is
`"<unk>"`. -/
def IsLastUnk {F : Type} (vocab : List (Subword F)) (i : Nat) (e : Subword F) : Prop :=
  vocab[i]? = some e ∧ e.Piece = unkPiece ∧
  ∀ (j : Nat) (e' : Subword F), i < j → vocab[j]? = some e' → e'.Piece ≠ unkPiece

/-- The remainders at which the outer loop of `EncodeText` starts an iteration: the text
itself, and what each scan of a non-empty remainder leaves. -/
inductive Reached {F : Type} (vocab : List (Subword F)) (text : GoString) : GoString → Prop
  | start : Reached vocab text text
  | next {remaining : GoString} : Reached vocab text remaining → remaining ≠ [] →
      Reached vocab text
        (remaining.drop (longestMatch vocab (unkIDOf vocab) remaining).matchLength)

/-- The vocabulary of the worked example: pieces `"ab"`, `"a"`, `"<unk>"` with IDs 0, 1, 2. -/
def exampleVocab {F : Type} (p₀ p₁ p₂ : F) : List (Subword F) :=
  [⟨0, [97, 98], p₀⟩, ⟨1, [97], p₁⟩, ⟨2, unkPiece, p₂⟩]

/-- What `TrainUnigramModel` returns on the exact runtime for the corpus `["a a b"]` and
`vocabSize = 3`: the words `a` (2/3) and `b` (1/3), then `<unk>`. -/
def aabVocab : List (Subword Frac) :=
  [⟨0, [97], ⟨2, 3⟩⟩, ⟨1, [98], ⟨1, 3⟩⟩, ⟨2, unkPiece, ⟨1, 1000⟩⟩]

/-- The piece registered under an ID: that of the entry of the vocabulary with this ID. -/
def pieceOfID {F : Type} (vocab : List (Subword F)) (id : Int) : Option GoString :=
  (vocab.find? (fun s => decide (s.ID = id))).map (fun s => s.Piece)

/-- The distinct words of a corpus: every line split on single spaces, repetitions removed. -/
def distinctWords (corpus : List GoString) : List GoString :=
  (corpus.flatMap splitSpace).dedup

/-- The piece of `s` is the concatenation, in order, of the words of the non-empty group
`g`. -/
def IsConcatOf {F : Type} (s : Subword F) (g : List GoString) : Prop :=
  g ≠ [] ∧ s.Piece = g.flatten

/-! ## The scan of `EncodeText` -/

theorem longestMatch_snoc {F : Type} (vocab : List (Subword F)) (s : Subword F) (unkID : Int)
    (remaining : GoString) :
    longestMatch (vocab ++ [s]) unkID remaining
      = scanStep remaining (longestMatch vocab unkID remaining) s := by
  simp [longestMatch, List.foldl_append]

/-- The result of the scan: either nothing non-empty matched and the defaults stand, or the
locals describe the first longest matching entry. -/
theorem longestMatch_cases {F : Type} (vocab : List (Subword F)) (unkID : Int)
    (remaining : GoString) :
    (longestMatch vocab unkID remaining = ⟨[], unkID, 1⟩ ∧
      ∀ s ∈ vocab, s.Piece <+: remaining → s.Piece = []) ∨
    (∃ i e, IsFirstLongestPrefix vocab remaining i e ∧ e.Piece ≠ [] ∧
      longestMatch vocab unkID remaining = ⟨e.Piece, e.ID, e.Piece.length⟩) := by
  induction vocab using List.reverseRecOn with
  | nil => left; simp [longestMatch]
  | append_singleton l s ih =>
    rw [longestMatch_snoc]
    rcases ih with ⟨hm, hnone⟩ | ⟨i, e, ⟨hi, hpre, hmax, hfirst⟩, hne, hm⟩
    · rw [hm]
      by_cases hp : s.Piece <+: remaining
      · by_cases hs : s.Piece = []
        · left
          refine ⟨by simp [scanStep, hs], ?_⟩
          intro s' hs' hp'
          rcases List.mem_append.1 hs' with h | h
          · exact hnone s' h hp'
          · simp only [List.mem_singleton] at h; subst h; exact hs
        · right
          have hpos : 0 < s.Piece.length := List.length_pos.2 hs
          refine ⟨l.length, s, ⟨by simp, hp, ?_, ?_⟩, hs, ?_⟩
          · intro j e' hj hp'
            rcases List.mem_append.1 (List.getElem?_mem hj) with h | h
            · simp [hnone e' h hp']
            · simp only [List.mem_singleton] at h; subst h; exact le_refl _
          · intro j e' hlt hj hp'
            rw [List.getElem?_append_left hlt] at hj
            rw [hnone e' (List.getElem?_mem hj) hp']; exact hpos
          · simp [scanStep, List.isPrefixOf_iff_prefix, hp, hpos]
      · left
        refine ⟨by simp [scanStep, List.isPrefixOf_iff_prefix, hp], ?_⟩
        intro s' hs' hp'
        rcases List.mem_append.1 hs' with h | h
        · exact hnone s' h hp'
        · simp only [List.mem_singleton] at h; subst h; exact absurd hp' hp
    · right
      rw [hm]
      have hil : i < l.length := (List.getElem?_eq_some_iff.1 hi).1
      by_cases hp : s.Piece <+: remaining ∧ e.Piece.length < s.Piece.length
      · refine ⟨l.length, s, ⟨by simp, hp.1, ?_, ?_⟩, ?_, ?_⟩
        · intro j e' hj hp'
          rcases List.mem_append.1 (List.getElem?_mem hj) with h | h
          · obtain ⟨k, hk⟩ := List.getElem?_of_mem h
            exact le_trans (hmax k e' hk hp') (le_of_lt hp.2)
          · simp only [List.mem_singleton] at h; subst h; exact le_refl _
        · intro j e' hlt hj hp'
          rw [List.getElem?_append_left hlt] at hj
          exact lt_of_le_of_lt (hmax j e' hj hp') hp.2
        · intro h; rw [h] at hp; simp at hp
        · simp [scanStep, List.isPrefixOf_iff_prefix, hp.1, hp.2]
      · refine ⟨i, e, ⟨?_, hpre, ?_, ?_⟩, hne, ?_⟩
        · rw [List.getElem?_append_left hil]; exact hi
        · intro j e' hj hp'
          by_cases hjl : j < l.length
          · rw [List.getElem?_append_left hjl] at hj; exact hmax j e' hj hp'
          · rcases List.mem_append.1 (List.getElem?_mem hj) with h | h
            · obtain ⟨k, hk⟩ := List.getElem?_of_mem h
              exact hmax k e' hk hp'
            · simp only [List.mem_singleton] at h; subst h
              exact not_lt.1 (fun hlt => hp ⟨hp', hlt⟩)
        · intro j e' hlt hj hp'
          rw [List.getElem?_append_left (lt_trans hlt hil)] at hj
          exact hfirst j e' hlt hj hp'
        · by_cases hp' : s.Piece <+: remaining
          · have : ¬ e.Piece.length < s.Piece.length := fun h => hp ⟨hp', h⟩
            simp [scanStep, List.isPrefixOf_iff_prefix, hp', this]
          · simp [scanStep, List.isPrefixOf_iff_prefix, hp']

theorem longestMatch_length_pos {F : Type} (vocab : List (Subword F)) (unkID : Int)
    (remaining : GoString) : 0 < (longestMatch vocab unkID remaining).matchLength := by
  rcases longestMatch_cases vocab unkID remaining with ⟨hm, _⟩ | ⟨i, e, _, hne, hm⟩
  · rw [hm]; exact Nat.one_pos
  · rw [hm]; exact List.length_pos.2 hne

theorem longestMatch_length_le {F : Type} (vocab : List (Subword F)) (unkID : Int)
    (remaining : GoString) (h : remaining ≠ []) :
    (longestMatch vocab unkID remaining).matchLength ≤ remaining.length := by
  rcases longestMatch_cases vocab unkID remaining with ⟨hm, _⟩ | ⟨i, e, hfl, _, hm⟩
  · rw [hm]; exact List.length_pos.2 h
  · rw [hm]; exact hfl.2.1.length_le

/-! ## The outer loop of `EncodeText` -/

theorem Run.map_done_iff {α β : Type} (f : α → β) (r : Run α) (b : β) :
    r.map f = Run.done b ↔ ∃ a, r = Run.done a ∧ f a = b := by
  cases r <;> simp [Run.map]

/-- One iteration of the outer loop on a non-empty remainder: the slice never panics. -/
theorem encodeLoop_succ {F : Type} (vocab : List (Subword F)) (unkID : Int) (fuel : Nat)
    (remaining : GoString) (h : remaining ≠ []) :
    encodeLoop vocab unkID (fuel + 1) remaining
      = (encodeLoop vocab unkID fuel
          (remaining.drop (longestMatch vocab unkID remaining).matchLength)).map
          ((longestMatch vocab unkID remaining).matchID :: ·) := by
  cases remaining with
  | nil => exact absurd rfl h
  | cons c cs =>
    have hle := longestMatch_length_le vocab unkID (c :: cs) h
    simp only [encodeLoop]
    rw [if_pos hle]

/-- With at least `len(remaining)` iterations allowed the loop finishes, with at most
`len(remaining)` tokens, and with at least one token when the remainder is not empty. -/
theorem encodeLoop_done {F : Type} (vocab : List (Subword F)) (unkID : Int) :
    ∀ (fuel : Nat) (remaining : GoString), remaining.length ≤ fuel →
      ∃ ts, encodeLoop vocab unkID fuel remaining = Run.done ts ∧
        ts.length ≤ remaining.length ∧ (remaining ≠ [] → ts ≠ []) := by
  intro fuel
  induction fuel with
  | zero =>
    intro remaining h
    have : remaining = [] := List.length_eq_zero.1 (Nat.le_zero.1 h)
    subst this
    exact ⟨[], by simp [encodeLoop], le_refl _, fun h => absurd rfl h⟩
  | succ fuel ih =>
    intro remaining h
    cases hr : remaining with
    | nil => exact ⟨[], by simp [encodeLoop], le_refl _, fun h => absurd rfl h⟩
    | cons c cs =>
      have hne : c :: cs ≠ [] := List.cons_ne_nil c cs
      have hpos := longestMatch_length_pos vocab unkID (c :: cs)
      have hle := longestMatch_length_le vocab unkID (c :: cs) hne
      have hlen : ((c :: cs).drop (longestMatch vocab unkID (c :: cs)).matchLength).length
          ≤ fuel := by
        rw [List.length_drop]; rw [hr] at h; omega
      obtain ⟨ts, hts, hlt, _⟩ := ih _ hlen
      refine ⟨(longestMatch vocab unkID (c :: cs)).matchID :: ts, ?_, ?_, ?_⟩
      · rw [encodeLoop_succ vocab unkID fuel (c :: cs) hne, hts]; rfl
      · rw [List.length_drop] at hlt
        simp only [List.length_cons] at hlt hle hpos ⊢
        omega
      · intro _; exact List.cons_ne_nil _ _

/-- The result does not depend on the iteration bound once it is at least `len(remaining)`. -/
theorem encodeLoop_fuel {F : Type} (vocab : List (Subword F)) (unkID : Int) :
    ∀ (fuel₁ fuel₂ : Nat) (remaining : GoString), remaining.length ≤ fuel₁ →
      remaining.length ≤ fuel₂ →
      encodeLoop vocab unkID fuel₁ remaining = encodeLoop vocab unkID fuel₂ remaining := by
  intro fuel₁
  induction fuel₁ with
  | zero =>
    intro fuel₂ remaining h _
    have : remaining = [] := List.length_eq_zero.1 (Nat.le_zero.1 h)
    subst this
    cases fuel₂ <;> simp [encodeLoop]
  | succ fuel₁ ih =>
    intro fuel₂ remaining h₁ h₂
    cases hr : remaining with
    | nil => cases fuel₂ <;> simp [encodeLoop]
    | cons c cs =>
      have hne : c :: cs ≠ [] := List.cons_ne_nil c cs
      have hpos := longestMatch_length_pos vocab unkID (c :: cs)
      rw [hr] at h₁ h₂
      cases fuel₂ with
      | zero => simp at h₂
      | succ fuel₂ =>
        rw [encodeLoop_succ vocab unkID fuel₁ (c :: cs) hne,
          encodeLoop_succ vocab unkID fuel₂ (c :: cs) hne]
        have hd : ((c :: cs).drop (longestMatch vocab unkID (c :: cs)).matchLength).length
            ≤ cs.length := by
          rw [List.length_drop]; simp only [List.length_cons]; omega
        simp only [List.length_cons] at h₁ h₂
        rw [ih fuel₂ _ (by omega) (by omega)]

/-- `EncodeText` on a non-empty text: the token of the first scan, followed by the encoding
of what the scan left. -/
theorem EncodeText_step {F : Type} (vocab : List (Subword F)) (text : GoString)
    (h : text ≠ []) :
    EncodeText text vocab
      = (EncodeText (text.drop (longestMatch vocab (unkIDOf vocab) text).matchLength)
          vocab).map ((longestMatch vocab (unkIDOf vocab) text).matchID :: ·) := by
  have hpos := longestMatch_length_pos vocab (unkIDOf vocab) text
  have hl : 0 < text.length := List.length_pos.2 h
  unfold EncodeText
  obtain ⟨n, hn⟩ : ∃ n, text.length = n + 1 := ⟨text.length - 1, by omega⟩
  rw [hn, encodeLoop_succ vocab (unkIDOf vocab) n text h]
  rw [encodeLoop_fuel vocab (unkIDOf vocab) n _ _ (by rw [List.length_drop]; omega)
    (le_refl _)]

theorem EncodeText_nil {F : Type} (vocab : List (Subword F)) :
    EncodeText [] vocab = Run.done [] := by
  simp [EncodeText, encodeLoop]

theorem EncodeText_done {F : Type} (vocab : List (Subword F)) (text : GoString) :
    ∃ ts, EncodeText text vocab = Run.done ts ∧ ts.length ≤ text.length ∧
      (text ≠ [] → ts ≠ []) :=
  encodeLoop_done vocab (unkIDOf vocab) text.length text (le_refl _)

theorem isFirstLongestPrefix_unique {F : Type} {vocab : List (Subword F)} {text : GoString}
    {i j : Nat} {e e' : Subword F} (h : IsFirstLongestPrefix vocab text i e)
    (h' : IsFirstLongestPrefix vocab text j e') : i = j ∧ e = e' := by
  obtain ⟨hi, hp, hmax, hfirst⟩ := h
  obtain ⟨hj, hp', hmax', hfirst'⟩ := h'
  have hij : i = j := by
    rcases Nat.lt_trichotomy i j with hlt | heq | hgt
    · have h1 := hfirst' i e hlt hi hp
      have h2 := hmax j e' hj hp'
      omega
    · exact heq
    · have h1 := hfirst j e' hgt hj hp'
      have h2 := hmax' i e hi hp
      omega
  subst hij
  rw [hi] at hj
  exact ⟨rfl, Option.some.inj hj⟩

theorem unkIDOf_snoc {F : Type} (vocab : List (Subword F)) (s : Subword F) :
    unkIDOf (vocab ++ [s]) = if s.Piece = unkPiece then s.ID else unkIDOf vocab := by
  simp [unkIDOf, List.foldl_append]

/-- The value of `unkID` after the first loop: `-1` when no piece is `"<unk>"`, otherwise
the ID of the last entry whose piece is `"<unk>"`. -/
theorem unkIDOf_cases {F : Type} (vocab : List (Subword F)) :
    (unkIDOf vocab = -1 ∧ ∀ s ∈ vocab, s.Piece ≠ unkPiece) ∨
    (∃ i e, IsLastUnk vocab i e ∧ unkIDOf vocab = e.ID) := by
  induction vocab using List.reverseRecOn with
  | nil => left; simp [unkIDOf]
  | append_singleton l s ih =>
    rw [unkIDOf_snoc]
    by_cases hs : s.Piece = unkPiece
    · right
      refine ⟨l.length, s, ⟨by simp, hs, ?_⟩, by simp [hs]⟩
      intro j e' hlt hj
      have := (List.getElem?_eq_some_iff.1 hj).1
      simp only [List.length_append, List.length_singleton] at this
      omega
    · rw [if_neg hs]
      rcases ih with ⟨hm, hnone⟩ | ⟨i, e, ⟨hi, hu, hlast⟩, hid⟩
      · left
        refine ⟨hm, ?_⟩
        intro s' hs'
        rcases List.mem_append.1 hs' with h | h
        · exact hnone s' h
        · simp only [List.mem_singleton] at h; subst h; exact hs
      · right
        have hil : i < l.length := (List.getElem?_eq_some_iff.1 hi).1
        refine ⟨i, e, ⟨?_, hu, ?_⟩, hid⟩
        · rw [List.getElem?_append_left hil]; exact hi
        · intro j e' hlt hj
          by_cases hjl : j < l.length
          · rw [List.getElem?_append_left hjl] at hj; exact hlast j e' hlt hj
          · rcases List.mem_append.1 (List.getElem?_mem hj) with h | h
            · obtain ⟨k, hk⟩ := List.getElem?_of_mem h
              have hkl : k < l.length := (List.getElem?_eq_some_iff.1 hk).1
              have hjb := (List.getElem?_eq_some_iff.1 hj).1
              simp only [List.length_append, List.length_singleton] at hjb
              have hjeq : j = l.length := by omega
              subst hjeq
              simp at hj
              subst hj; exact hs
            · simp only [List.mem_singleton] at h; subst h; exact hs

theorem isLastUnk_unique {F : Type} {vocab : List (Subword F)} {i j : Nat} {e e' : Subword F}
    (h : IsLastUnk vocab i e) (h' : IsLastUnk vocab j e') : i = j ∧ e = e' := by
  obtain ⟨hi, hu, hlast⟩ := h
  obtain ⟨hj, hu', hlast'⟩ := h'
  have hij : i = j := by
    rcases Nat.lt_trichotomy i j with hlt | heq | hgt
    · exact absurd hu' (hlast j e' hlt hj)
    · exact heq
    · exact absurd hu (hlast' i e hgt hi)
  subst hij
  rw [hi] at hj
  exact ⟨rfl, Option.some.inj hj⟩

/-- The scan falls back to its defaults exactly as stated: no non-empty piece is a prefix. -/
theorem longestMatch_fallback {F : Type} (vocab : List (Subword F)) (unkID : Int)
    (remaining : GoString)
    (hno : ∀ s ∈ vocab, s.Piece ≠ [] → ¬ s.Piece <+: remaining) :
    longestMatch vocab unkID remaining = ⟨[], unkID, 1⟩ := by
  rcases longestMatch_cases vocab unkID remaining with ⟨hm, _⟩ | ⟨i, e, ⟨hi, hp, _⟩, hne, _⟩
  · exact hm
  · exact absurd hp (hno e (List.getElem?_mem hi) hne)

/-- The encoding of a text is the tokens produced up to a reached remainder followed by the
encoding of that remainder. -/
theorem EncodeText_reached {F : Type} (vocab : List (Subword F)) (text remaining : GoString)
    (h : Reached vocab text remaining) :
    ∃ pre ts, EncodeText remaining vocab = Run.done ts ∧
      EncodeText text vocab = Run.done (pre ++ ts) := by
  induction h with
  | start =>
    obtain ⟨ts, hts, _⟩ := EncodeText_done vocab text
    exact ⟨[], ts, hts, by simpa using hts⟩
  | next hr hne ih =>
    rename_i r
    obtain ⟨pre, ts, hts, hall⟩ := ih
    rw [EncodeText_step vocab r hne] at hts
    obtain ⟨ts', hts', hcons⟩ := (Run.map_done_iff _ _ _).1 hts
    refine ⟨pre ++ [(longestMatch vocab (unkIDOf vocab) r).matchID], ts', hts', ?_⟩
    rw [hall, ← hcons]; simp

/-! ## Claims about `EncodeText` -/

/-- C1: `EncodeText` is greedy longest-prefix matching.  For every vocabulary and every
non-empty text of which some non-empty piece is a prefix, there is a first entry, in vocabulary
order, among the entries whose piece is a prefix of the text with the greatest piece length;
the first token is the ID of that entry, and the remaining tokens are the encoding of the
text without the first `len(piece)` bytes. -/
theorem C1_EncodeText_greedy_longest_prefix {F : Type} (vocab : List (Subword F))
    (text : GoString) (htext : text ≠ [])
    (hsome : ∃ s ∈ vocab, s.Piece ≠ [] ∧ s.Piece <+: text) :
    (∃ i e, IsFirstLongestPrefix vocab text i e) ∧
    ∀ i e, IsFirstLongestPrefix vocab text i e →
      ∃ rest, EncodeText text vocab = Run.done (e.ID :: rest) ∧
        EncodeText (text.drop e.Piece.length) vocab = Run.done rest := by
  obtain ⟨s, hs, hne, hp⟩ := hsome
  rcases longestMatch_cases vocab (unkIDOf vocab) text with ⟨_, hnone⟩ | ⟨i₀, e₀, hfl, _, hm⟩
  · exact absurd (hnone s hs hp) hne
  · refine ⟨⟨i₀, e₀, hfl⟩, ?_⟩
    intro i e hie
    obtain ⟨_, he⟩ := isFirstLongestPrefix_unique hie hfl
    subst he
    obtain ⟨rest, hrest, _⟩ := EncodeText_done vocab (text.drop e.Piece.length)
    refine ⟨rest, ?_, hrest⟩
    rw [EncodeText_step vocab text htext, hm]
    simp only
    rw [hrest]; rfl

/-- Witness of C1: the text `"abc"` and the vocabulary of the worked example. -/
theorem C1_EncodeText_greedy_longest_prefix_witness :
    (∃ i e, IsFirstLongestPrefix (exampleVocab (0 : Nat) 0 0) [97, 98, 99] i e) ∧
    ∀ i e, IsFirstLongestPrefix (exampleVocab (0 : Nat) 0 0) [97, 98, 99] i e →
      ∃ rest, EncodeText [97, 98, 99] (exampleVocab (0 : Nat) 0 0) = Run.done (e.ID :: rest) ∧
        EncodeText (([97, 98, 99] : GoString).drop e.Piece.length) (exampleVocab (0 : Nat) 0 0)
          = Run.done rest :=
  C1_EncodeText_greedy_longest_prefix (exampleVocab (0 : Nat) 0 0) [97, 98, 99] (by decide)
    ⟨⟨0, [97, 98], 0⟩, by simp [exampleVocab], by decide, by decide⟩

/-- C2: the fallback of `EncodeText`.  For every vocabulary that contains a piece `"<unk>"`
and every non-empty text of which no non-empty piece is a prefix, the first token is the ID
of the last vocabulary entry whose piece is `"<unk>"`, one byte is consumed, and the
remaining tokens are the encoding of the text without its first byte. -/
theorem C2_EncodeText_fallback {F : Type} (vocab : List (Subword F)) (text : GoString)
    (hunk : ∃ s ∈ vocab, s.Piece = unkPiece) (htext : text ≠ [])
    (hno : ∀ s ∈ vocab, s.Piece ≠ [] → ¬ s.Piece <+: text) :
    (∃ i e, IsLastUnk vocab i e) ∧
    ∀ i e, IsLastUnk vocab i e →
      ∃ rest, EncodeText text vocab = Run.done (e.ID :: rest) ∧
        EncodeText (text.drop 1) vocab = Run.done rest := by
  obtain ⟨s, hs, hsu⟩ := hunk
  rcases unkIDOf_cases vocab with ⟨_, hnone⟩ | ⟨i₀, e₀, hlast, hid⟩
  · exact absurd hsu (hnone s hs)
  · refine ⟨⟨i₀, e₀, hlast⟩, ?_⟩
    intro i e hie
    obtain ⟨_, he⟩ := isLastUnk_unique hie hlast
    subst he
    obtain ⟨rest, hrest, _⟩ := EncodeText_done vocab (text.drop 1)
    refine ⟨rest, ?_, hrest⟩
    rw [EncodeText_step vocab text htext, longestMatch_fallback vocab _ text hno]
    simp only
    rw [hrest, hid]; rfl

/-- Witness of C2: the text `"c"` and the vocabulary of the worked example. -/
theorem C2_EncodeText_fallback_witness :
    (∃ i e, IsLastUnk (exampleVocab (0 : Nat) 0 0) i e) ∧
    ∀ i e, IsLastUnk (exampleVocab (0 : Nat) 0 0) i e →
      ∃ rest, EncodeText [99] (exampleVocab (0 : Nat) 0 0) = Run.done (e.ID :: rest) ∧
        EncodeText (([99] : GoString).drop 1) (exampleVocab (0 : Nat) 0 0) = Run.done rest :=
  C2_EncodeText_fallback (exampleVocab (0 : Nat) 0 0) [99]
    ⟨⟨2, unkPiece, 0⟩, by simp [exampleVocab], rfl⟩ (by decide)
    (by
      intro s hs hne hp
      simp only [exampleVocab, List.mem_cons, List.mem_singleton, List.not_mem_nil,
        or_false] at hs
      rcases hs with h | h | h <;> subst h <;> revert hp <;> decide)

/-- C6: token count bounds.  For every vocabulary and every text `EncodeText` returns a
token list; for the empty text it is empty, and for a non-empty text it is non-empty and no
longer than the text. -/
theorem C6_EncodeText_token_count {F : Type} (vocab : List (Subword F)) (text : GoString) :
    ∃ ts, EncodeText text vocab = Run.done ts ∧ (text = [] → ts = []) ∧
      (text ≠ [] → ts ≠ [] ∧ ts.length ≤ text.length) := by
  obtain ⟨ts, hts, hlen, hne⟩ := EncodeText_done vocab text
  refine ⟨ts, hts, ?_, fun h => ⟨hne h, hlen⟩⟩
  intro h
  subst h
  rw [EncodeText_nil] at hts
  exact (Run.done.inj hts).symm

/-- C7, as the code has it: with the vocabulary `ab`, `a`, `<unk>` (IDs 0, 1, 2) the text
`"abc"` encodes to `[0, 2]`, and `[0, 2]` decodes to `"ab<unk>"`: the text registered under
ID 2 is part of the output. -/
theorem C7_worked_example {F : Type} (p₀ p₁ p₂ : F) :
    EncodeText [97, 98, 99] (exampleVocab p₀ p₁ p₂) = Run.done [0, 2] ∧
    DecodeTokens [0, 2] (exampleVocab p₀ p₁ p₂) = [97, 98, 60, 117, 110, 107, 62] :=
  ⟨rfl, rfl⟩

/-- C7 as stated fails: decoding `[0, 2]` with the vocabulary of the worked example does not
give `"ab"`. -/
theorem C7_worked_example_counterexample :
    ¬ (EncodeText [97, 98, 99] (exampleVocab (0 : Nat) 0 0) = Run.done [0, 2] ∧
      DecodeTokens [0, 2] (exampleVocab (0 : Nat) 0 0) = [97, 98]) := by
  decide

/-- C9, as the code has it: `EncodeText` has no failure result.  For every vocabulary with
no `"<unk>"` entry and every text, at every non-empty remainder the scan reaches of which no
non-empty piece is a prefix, the token is the initial value `-1` of `unkID` and one byte is
consumed; the call returns an ordinary token list that contains this `-1`. -/
theorem C9_EncodeText_missing_unk {F : Type} (vocab : List (Subword F))
    (text remaining : GoString) (hnounk : ∀ s ∈ vocab, s.Piece ≠ unkPiece)
    (hreached : Reached vocab text remaining) (hne : remaining ≠ [])
    (hno : ∀ s ∈ vocab, s.Piece ≠ [] → ¬ s.Piece <+: remaining) :
    ∃ pre rest, EncodeText text vocab = Run.done (pre ++ (-1) :: rest) ∧
      EncodeText remaining vocab = Run.done ((-1) :: rest) ∧
      EncodeText (remaining.drop 1) vocab = Run.done rest := by
  have hid : unkIDOf vocab = -1 := by
    rcases unkIDOf_cases vocab with ⟨h, _⟩ | ⟨i, e, ⟨hi, hu, _⟩, _⟩
    · exact h
    · exact absurd hu (hnounk e (List.getElem?_mem hi))
  obtain ⟨pre, ts, hts, hall⟩ := EncodeText_reached vocab text remaining hreached
  obtain ⟨rest, hrest, _⟩ := EncodeText_done vocab (remaining.drop 1)
  have hstep : EncodeText remaining vocab = Run.done ((-1) :: rest) := by
    rw [EncodeText_step vocab remaining hne, longestMatch_fallback vocab _ remaining hno]
    simp only
    rw [hrest, hid]; rfl
  rw [hstep] at hts
  refine ⟨pre, rest, ?_, hstep, hrest⟩
  rw [hall, ← Run.done.inj hts]

/-- Witness of C9: the vocabulary with the single piece `"a"` and the text `"ab"`, at the
remainder `"b"`. -/
theorem C9_EncodeText_missing_unk_witness :
    ∃ pre rest,
      EncodeText [97, 98] [(⟨0, [97], 0⟩ : Subword Nat)] = Run.done (pre ++ (-1) :: rest) ∧
      EncodeText [98] [(⟨0, [97], 0⟩ : Subword Nat)] = Run.done ((-1) :: rest) ∧
      EncodeText (([98] : GoString).drop 1) [(⟨0, [97], 0⟩ : Subword Nat)] = Run.done rest :=
  C9_EncodeText_missing_unk [(⟨0, [97], 0⟩ : Subword Nat)] [97, 98] [98]
    (by intro s hs; simp only [List.mem_singleton] at hs; subst hs; decide)
    (Reached.next Reached.start (by decide))
    (by decide)
    (by intro s hs _; simp only [List.mem_singleton] at hs; subst hs; decide)

/-- C9 as stated fails: with the vocabulary of the single piece `"a"` (no `"<unk>"`) the
text `"b"` matches no piece, and `EncodeText` returns the ordinary token list `[-1]`, no
entry having the ID `-1`. -/
theorem C9_EncodeText_missing_unk_counterexample :
    (∀ s ∈ [(⟨0, [97], 0⟩ : Subword Nat)], s.Piece ≠ unkPiece) ∧
    (∀ s ∈ [(⟨0, [97], 0⟩ : Subword Nat)], ¬ s.Piece <+: ([98] : GoString)) ∧
    (∀ s ∈ [(⟨0, [97], 0⟩ : Subword Nat)], s.ID ≠ -1) ∧
    EncodeText [98] [(⟨0, [97], 0⟩ : Subword Nat)] = Run.done [-1] := by
  decide

/-! ## `DecodeTokens` -/

theorem mapGet?_mapSet {κ ν : Type} [DecidableEq κ] (m : List (κ × ν)) (k k' : κ) (v : ν) :
    mapGet? (mapSet m k v) k' = if k = k' then some v else mapGet? m k' := by
  induction m with
  | nil => simp [mapSet, mapGet?]
  | cons kv rest ih =>
    obtain ⟨k₀, v₀⟩ := kv
    by_cases h : k₀ = k
    · subst h
      by_cases h' : k₀ = k' <;> simp [mapSet, mapGet?, h']
    · by_cases h' : k₀ = k'
      · subst h'
        have : ¬ k = k₀ := fun e => h e.symm
        simp [mapSet, mapGet?, h, this]
      · simp [mapSet, mapGet?, h, h', ih]

theorem idToSubword_snoc {F : Type} (vocab : List (Subword F)) (s : Subword F) :
    idToSubword (vocab ++ [s]) = mapSet (idToSubword vocab) s.ID s.Piece := by
  simp [idToSubword, List.foldl_append]

/-- With pairwise distinct IDs, the map `idToSubword` holds under every ID the piece of the
entry with that ID, and nothing under any other number. -/
theorem mapGet?_idToSubword {F : Type} (vocab : List (Subword F))
    (hdistinct : vocab.Pairwise (fun a b => a.ID ≠ b.ID)) (id : Int) :
    mapGet? (idToSubword vocab) id = pieceOfID vocab id := by
  induction vocab using List.reverseRecOn with
  | nil => simp [idToSubword, mapGet?, pieceOfID]
  | append_singleton l s ih =>
    rw [List.pairwise_append] at hdistinct
    obtain ⟨hl, _, hls⟩ := hdistinct
    rw [idToSubword_snoc, mapGet?_mapSet, ih hl]
    unfold pieceOfID
    rw [List.find?_append]
    by_cases h : s.ID = id
    · have hnone : l.find? (fun s => decide (s.ID = id)) = none := by
        rw [List.find?_eq_none]
        intro a ha
        have := hls a ha s (List.mem_singleton_self s)
        simp only [decide_eq_true_eq]
        rw [← h]; exact this
      simp [h, hnone]
    · simp [h]

/-- No entry has the ID: nothing is registered under it. -/
theorem pieceOfID_eq_none {F : Type} (vocab : List (Subword F)) (id : Int) :
    pieceOfID vocab id = none ↔ id ∉ vocab.map (fun s => s.ID) := by
  unfold pieceOfID
  rw [Option.map_eq_none', List.find?_eq_none]
  simp only [decide_eq_true_eq, List.mem_map, not_exists, not_and]

theorem mapGet?_idToSubword_eq_none {F : Type} (vocab : List (Subword F)) (id : Int) :
    mapGet? (idToSubword vocab) id = none ↔ id ∉ vocab.map (fun s => s.ID) := by
  induction vocab using List.reverseRecOn with
  | nil => simp [idToSubword, mapGet?]
  | append_singleton l s ih =>
    rw [idToSubword_snoc, mapGet?_mapSet]
    by_cases h : s.ID = id
    · simp [h]
    · have h' : ¬ id = s.ID := fun e => h e.symm
      simp [h, h', ih]

theorem decodeWords_foldl (m : List (Int × GoString)) (tokenIDs : List Int)
    (words : List GoString) :
    tokenIDs.foldl
      (fun words id => match mapGet? m id with
        | some word => words ++ [word]
        | none => words) words
      = words ++ tokenIDs.filterMap (mapGet? m) := by
  induction tokenIDs generalizing words with
  | nil => simp
  | cons id ids ih =>
    rw [List.foldl_cons, ih]
    cases h : mapGet? m id <;> simp [List.filterMap_cons, h]

theorem decodeWords_eq (m : List (Int × GoString)) (tokenIDs : List Int) :
    decodeWords m tokenIDs = tokenIDs.filterMap (mapGet? m) := by
  unfold decodeWords
  rw [decodeWords_foldl]; simp

theorem filterMap_filter_of_none {α β : Type} (g : α → Option β) (p : α → Bool)
    (h : ∀ a, p a = false → g a = none) (l : List α) :
    (l.filter p).filterMap g = l.filterMap g := by
  induction l with
  | nil => rfl
  | cons a l ih =>
    cases hp : p a
    · simp [List.filter_cons, hp, List.filterMap_cons, h a hp, ih]
    · simp [List.filter_cons, hp, List.filterMap_cons, ih]

/-- Decoding token by token. -/
theorem DecodeTokens_cons {F : Type} (vocab : List (Subword F)) (id : Int) (ids : List Int) :
    DecodeTokens (id :: ids) vocab
      = ((mapGet? (idToSubword vocab) id).getD []) ++ DecodeTokens ids vocab := by
  unfold DecodeTokens
  rw [decodeWords_eq, decodeWords_eq]
  cases h : mapGet? (idToSubword vocab) id <;> simp [List.filterMap_cons, h]

theorem DecodeTokens_nil {F : Type} (vocab : List (Subword F)) :
    DecodeTokens [] vocab = [] := by
  simp [DecodeTokens, decodeWords]

/-- C3: `DecodeTokens` is lookup-and-concatenate.  For every vocabulary with pairwise
distinct IDs and every list of token IDs, the result is the concatenation, in input order and
with no separator, of the pieces of those IDs that are the ID of some entry; the other IDs
contribute nothing, so that decoding the list with them removed gives the same string. -/
theorem C3_DecodeTokens_lookup_concat {F : Type} (vocab : List (Subword F))
    (hdistinct : vocab.Pairwise (fun a b => a.ID ≠ b.ID)) (tokenIDs : List Int) :
    DecodeTokens tokenIDs vocab = (tokenIDs.filterMap (pieceOfID vocab)).flatten ∧
    (∀ id, pieceOfID vocab id = none ↔ id ∉ vocab.map (fun s => s.ID)) ∧
    DecodeTokens tokenIDs vocab
      = DecodeTokens (tokenIDs.filter (fun id => decide (id ∈ vocab.map (fun s => s.ID))))
          vocab := by
  have hfun : mapGet? (idToSubword vocab) = pieceOfID vocab :=
    funext (mapGet?_idToSubword vocab hdistinct)
  refine ⟨?_, pieceOfID_eq_none vocab, ?_⟩
  · unfold DecodeTokens
    rw [decodeWords_eq, hfun]
  · unfold DecodeTokens
    rw [decodeWords_eq, decodeWords_eq, filterMap_filter_of_none]
    intro id hid
    rw [mapGet?_idToSubword_eq_none]
    simpa using hid

/-- Witness of C3: the vocabulary of the worked example and the IDs `[0, 7, 2]`. -/
theorem C3_DecodeTokens_lookup_concat_witness :
    DecodeTokens [0, 7, 2] (exampleVocab (0 : Nat) 0 0)
      = (([0, 7, 2] : List Int).filterMap (pieceOfID (exampleVocab (0 : Nat) 0 0))).flatten ∧
    (∀ id, pieceOfID (exampleVocab (0 : Nat) 0 0) id = none ↔
      id ∉ (exampleVocab (0 : Nat) 0 0).map (fun s => s.ID)) ∧
    DecodeTokens [0, 7, 2] (exampleVocab (0 : Nat) 0 0)
      = DecodeTokens (([0, 7, 2] : List Int).filter
          (fun id => decide (id ∈ (exampleVocab (0 : Nat) 0 0).map (fun s => s.ID))))
          (exampleVocab (0 : Nat) 0 0) :=
  C3_DecodeTokens_lookup_concat (exampleVocab (0 : Nat) 0 0) (by decide) [0, 7, 2]

/-! ## Counting the words -/

theorem mapSet_keys {κ ν : Type} [DecidableEq κ] (m : List (κ × ν)) (k : κ) (v : ν) :
    (k ∈ m.map Prod.fst → (mapSet m k v).map Prod.fst = m.map Prod.fst) ∧
    (k ∉ m.map Prod.fst → (mapSet m k v).map Prod.fst = m.map Prod.fst ++ [k]) := by
  induction m with
  | nil => simp [mapSet]
  | cons kv rest ih =>
    obtain ⟨k₀, v₀⟩ := kv
    by_cases h : k₀ = k
    · subst h; simp [mapSet]
    · have h' : ¬ k = k₀ := fun e => h e.symm
      simp only [mapSet, h, if_false, List.map_cons, List.mem_cons, h', false_or,
        List.cons_append, List.cons.injEq, true_and]
      exact ih

theorem foldl_flatMap {α β γ : Type} (f : α → List β) (g : γ → β → γ) (l : List α) (acc : γ) :
    l.foldl (fun acc a => (f a).foldl g acc) acc = (l.flatMap f).foldl g acc := by
  induction l generalizing acc with
  | nil => rfl
  | cons a l ih => simp [List.flatMap_cons, List.foldl_append, ih]

/-- Counting a list of words into a map with distinct keys: the keys stay distinct, and they
are the old keys together with the words. -/
theorem foldl_countWord_keys (words : List GoString) (m : List (GoString × Int))
    (hm : (m.map Prod.fst).Nodup) :
    ((words.foldl countWord m).map Prod.fst).Nodup ∧
    ∀ w, w ∈ (words.foldl countWord m).map Prod.fst ↔ w ∈ m.map Prod.fst ∨ w ∈ words := by
  induction words generalizing m with
  | nil => exact ⟨hm, fun w => by simp⟩
  | cons w₀ ws ih =>
    obtain ⟨hin, hout⟩ := mapSet_keys m w₀ ((mapGet? m w₀).getD 0 + 1)
    by_cases hw : w₀ ∈ m.map Prod.fst
    · have hkeys : (countWord m w₀).map Prod.fst = m.map Prod.fst := hin hw
      obtain ⟨h₁, h₂⟩ := ih (countWord m w₀) (by rw [hkeys]; exact hm)
      refine ⟨h₁, ?_⟩
      intro w
      rw [List.foldl_cons, h₂ w, hkeys]
      constructor
      · rintro (h | h)
        · exact Or.inl h
        · exact Or.inr (List.mem_cons_of_mem _ h)
      · rintro (h | h)
        · exact Or.inl h
        · rcases List.mem_cons.1 h with h | h
          · subst h; exact Or.inl hw
          · exact Or.inr h
    · have hkeys : (countWord m w₀).map Prod.fst = m.map Prod.fst ++ [w₀] := hout hw
      have hnodup : ((countWord m w₀).map Prod.fst).Nodup := by
        rw [hkeys, List.nodup_append]
        refine ⟨hm, List.nodup_singleton _, ?_⟩
        intro a ha hb
        simp only [List.mem_singleton] at hb
        subst hb; exact hw ha
      obtain ⟨h₁, h₂⟩ := ih (countWord m w₀) hnodup
      refine ⟨h₁, ?_⟩
      intro w
      rw [List.foldl_cons, h₂ w, hkeys]
      simp only [List.mem_append, List.mem_singleton, List.mem_cons]
      tauto

/-- The map `wordCounts` has one key per distinct word of the corpus. -/
theorem countWords_length (corpus : List GoString) :
    (countWords corpus).length = (distinctWords corpus).length := by
  unfold countWords distinctWords
  rw [foldl_flatMap]
  obtain ⟨h₁, h₂⟩ := foldl_countWord_keys (corpus.flatMap splitSpace) [] (by simp)
  have hperm : List.Perm (((corpus.flatMap splitSpace).foldl countWord []).map Prod.fst)
      (corpus.flatMap splitSpace).dedup := by
    rw [List.perm_ext_iff_of_nodup h₁ (List.nodup_dedup _)]
    intro w
    rw [h₂ w, List.mem_dedup]; simp
  rw [← hperm.length_eq, List.length_map]

/-! ## The merge loop and the ID assignment -/

theorem wrapInt64_of_range (x : Int) (hlo : -2 ^ 63 ≤ x) (hhi : x < 2 ^ 63) :
    wrapInt64 x = x := by
  unfold wrapInt64
  rw [Int.emod_eq_of_lt (by omega) (by omega)]
  omega

theorem initVocab_length {F : Type} (rt : Runtime F) (wordCounts : List (GoString × Int)) :
    (initVocab rt wordCounts).length = wordCounts.length := by
  unfold initVocab
  rw [List.length_map, (rt.rangeOrder_perm wordCounts).length_eq]

theorem normalize_length {F : Type} (rt : Runtime F) (vocab : List (Subword F)) :
    (normalize rt vocab).length = vocab.length := by
  simp [normalize]

/-- The slice that enters the merge loop has one entry per distinct word. -/
theorem initial_length {F : Type} (rt : Runtime F) (corpus : List GoString) :
    (normalize rt (initVocab rt (countWords corpus))).length
      = (distinctWords corpus).length := by
  rw [normalize_length, initVocab_length, countWords_length]

/-- With `vocabSize-1 ≥ 1` the merge loop never reads past the slice: it returns, and what
it returns has `min (len(vocab), vocabSize-1)` entries. -/
theorem mergeLoop_done {F : Type} (rt : Runtime F) (limit : Int) (hlimit : 1 ≤ limit) :
    ∀ (fuel : Nat) (vocab : List (Subword F)), vocab.length ≤ fuel →
      ∃ v, mergeLoop rt limit fuel vocab = Run.done v ∧
        (v.length : Int) = min (vocab.length : Int) limit := by
  intro fuel
  induction fuel with
  | zero =>
    intro vocab h
    have h0 : vocab.length = 0 := Nat.le_zero.1 h
    refine ⟨vocab, ?_, ?_⟩
    · simp only [mergeLoop]
      rw [if_neg (by omega)]
    · omega
  | succ fuel ih =>
    intro vocab h
    by_cases hc : (vocab.length : Int) > limit
    · have hlen := (rt.sortSlice_perm (fun a b => rt.lt a.Probability b.Probability)
        vocab).length_eq
      simp only [mergeLoop]
      rw [if_pos hc]
      cases hs : rt.sortSlice (fun a b => rt.lt a.Probability b.Probability) vocab with
      | nil => rw [hs] at hlen; simp only [List.length_nil] at hlen; omega
      | cons a tl =>
        cases tl with
        | nil => rw [hs] at hlen; simp only [List.length_cons, List.length_nil] at hlen; omega
        | cons b rest =>
          rw [hs] at hlen
          simp only [List.length_cons] at hlen
          have hnew : (rest ++ [mergePieces rt a b]).length = vocab.length - 1 := by
            simp only [List.length_append, List.length_singleton]; omega
          obtain ⟨v, hv, hvl⟩ := ih (rest ++ [mergePieces rt a b]) (by omega)
          refine ⟨v, hv, ?_⟩
          rw [hvl, hnew]; omega
    · refine ⟨vocab, ?_, ?_⟩
      · simp only [mergeLoop]
        rw [if_neg hc]
      · omega

/-- With `vocabSize-1 < 1` and more entries than `vocabSize-1`, the merge loop ends in the
index-out-of-range panic of `vocab[0]` or `vocab[1]`. -/
theorem mergeLoop_panic {F : Type} (rt : Runtime F) (limit : Int) (hlimit : limit < 1) :
    ∀ (fuel : Nat) (vocab : List (Subword F)), vocab.length < fuel →
      limit < (vocab.length : Int) → mergeLoop rt limit fuel vocab = Run.panic := by
  intro fuel
  induction fuel with
  | zero => intro vocab h; omega
  | succ fuel ih =>
    intro vocab h hc
    have hlen := (rt.sortSlice_perm (fun a b => rt.lt a.Probability b.Probability)
      vocab).length_eq
    simp only [mergeLoop]
    rw [if_pos hc]
    cases hs : rt.sortSlice (fun a b => rt.lt a.Probability b.Probability) vocab with
    | nil => rfl
    | cons a tl =>
      cases tl with
      | nil => rfl
      | cons b rest =>
        rw [hs] at hlen
        simp only [List.length_cons] at hlen
        have hnew : (rest ++ [mergePieces rt a b]).length = vocab.length - 1 := by
          simp only [List.length_append, List.length_singleton]; omega
        exact ih (rest ++ [mergePieces rt a b]) (by omega) (by rw [hnew]; omega)

/-- The iteration bound of the merge loop is never what ends it. -/
theorem mergeLoop_ne_timeout {F : Type} (rt : Runtime F) (limit : Int) :
    ∀ (fuel : Nat) (vocab : List (Subword F)), vocab.length < fuel →
      mergeLoop rt limit fuel vocab ≠ Run.timeout := by
  intro fuel
  induction fuel with
  | zero => intro vocab h; omega
  | succ fuel ih =>
    intro vocab h
    have hlen := (rt.sortSlice_perm (fun a b => rt.lt a.Probability b.Probability)
      vocab).length_eq
    simp only [mergeLoop]
    by_cases hc : (vocab.length : Int) > limit
    · rw [if_pos hc]
      cases hs : rt.sortSlice (fun a b => rt.lt a.Probability b.Probability) vocab with
      | nil => simp
      | cons a tl =>
        cases tl with
        | nil => simp
        | cons b rest =>
          rw [hs] at hlen
          simp only [List.length_cons] at hlen
          have hnew : (rest ++ [mergePieces rt a b]).length = vocab.length - 1 := by
            simp only [List.length_append, List.length_singleton]; omega
          exact ih (rest ++ [mergePieces rt a b]) (by omega)
    · rw [if_neg hc]; simp

theorem assignIDs_length {F : Type} (l : List (Subword F)) (k : Nat) :
    (assignIDs k l).length = l.length := by
  induction l generalizing k with
  | nil => rfl
  | cons s l ih => simp [assignIDs, ih]

theorem assignIDs_append {F : Type} (l l' : List (Subword F)) (k : Nat) :
    assignIDs k (l ++ l') = assignIDs k l ++ assignIDs (k + l.length) l' := by
  induction l generalizing k with
  | nil => simp [assignIDs]
  | cons s l ih =>
    have e : k + (l.length + 1) = k + 1 + l.length := by omega
    rw [List.cons_append, assignIDs, assignIDs, ih (k + 1), List.length_cons, e]
    rfl

theorem assignIDs_map_Piece {F : Type} (l : List (Subword F)) (k : Nat) :
    (assignIDs k l).map (fun s => s.Piece) = l.map (fun s => s.Piece) := by
  induction l generalizing k with
  | nil => rfl
  | cons s l ih => simp [assignIDs, ih]

theorem assignIDs_map_ID {F : Type} (l : List (Subword F)) (k : Nat) :
    (assignIDs k l).map (fun s => s.ID) = (List.range' k l.length).map Int.ofNat := by
  induction l generalizing k with
  | nil => rfl
  | cons s l ih => simp [assignIDs, ih, List.range'_succ]

/-- A successful run of the trainer returns the pieces left by the merge loop followed by
`<unk>`, numbered from 0. -/
theorem TrainUnigramModel_shape {F : Type} (rt : Runtime F) (corpus : List GoString)
    (vocabSize : Int) (vocab : List (Subword F))
    (h : TrainUnigramModel rt corpus vocabSize = Run.done vocab) :
    ∃ pieces, vocab = assignIDs 0 (pieces ++ [⟨0, unkPiece, rt.unkProbability⟩]) := by
  unfold TrainUnigramModel at h
  obtain ⟨pieces, _, hp⟩ := (Run.map_done_iff _ _ _).1 h
  exact ⟨pieces, hp.symm⟩

/-- For `2 ≤ vocabSize` the trainer returns, with `min (d, vocabSize-1)` pieces before
`<unk>`, `d` the number of distinct words. -/
theorem TrainUnigramModel_done {F : Type} (rt : Runtime F) (corpus : List GoString)
    (vocabSize : Int) (h2 : 2 ≤ vocabSize) (hmax : vocabSize < 2 ^ 63) :
    ∃ pieces, TrainUnigramModel rt corpus vocabSize
        = Run.done (assignIDs 0 (pieces ++ [⟨0, unkPiece, rt.unkProbability⟩])) ∧
      (pieces.length : Int) = min ((distinctWords corpus).length : Int) (vocabSize - 1) := by
  have hw : wrapInt64 (vocabSize - 1) = vocabSize - 1 :=
    wrapInt64_of_range _ (by omega) (by omega)
  obtain ⟨v, hv, hvl⟩ := mergeLoop_done rt (vocabSize - 1) (by omega)
    ((normalize rt (initVocab rt (countWords corpus))).length + 1)
    (normalize rt (initVocab rt (countWords corpus))) (Nat.le_succ _)
  refine ⟨v, ?_, ?_⟩
  · unfold TrainUnigramModel
    simp only [hw, hv, Run.map]
  · rw [hvl, initial_length]

/-- The trainer always ends by itself: it returns or it panics. -/
theorem TrainUnigramModel_ne_timeout {F : Type} (rt : Runtime F) (corpus : List GoString)
    (vocabSize : Int) : TrainUnigramModel rt corpus vocabSize ≠ Run.timeout := by
  have h := mergeLoop_ne_timeout rt (wrapInt64 (vocabSize - 1))
    ((normalize rt (initVocab rt (countWords corpus))).length + 1)
    (normalize rt (initVocab rt (countWords corpus))) (Nat.lt_succ_self _)
  unfold TrainUnigramModel
  intro hmap
  cases hm : mergeLoop rt (wrapInt64 (vocabSize - 1))
      ((normalize rt (initVocab rt (countWords corpus))).length + 1)
      (normalize rt (initVocab rt (countWords corpus))) with
  | done v => simp only [hm, Run.map] at hmap; cases hmap
  | panic => simp only [hm, Run.map] at hmap; cases hmap
  | timeout => exact h hm

/-- For `vocabSize ≤ 1` and a corpus with at least one word the trainer panics. -/
theorem TrainUnigramModel_panic {F : Type} (rt : Runtime F) (corpus : List GoString)
    (vocabSize : Int) (hmin : -2 ^ 63 < vocabSize) (h1 : vocabSize ≤ 1)
    (hd : 0 < (distinctWords corpus).length) :
    TrainUnigramModel rt corpus vocabSize = Run.panic := by
  have hw : wrapInt64 (vocabSize - 1) = vocabSize - 1 :=
    wrapInt64_of_range _ (by omega) (by omega)
  have hp := mergeLoop_panic rt (vocabSize - 1) (by omega)
    ((normalize rt (initVocab rt (countWords corpus))).length + 1)
    (normalize rt (initVocab rt (countWords corpus))) (Nat.lt_succ_self _)
    (by rw [initial_length]; omega)
  unfold TrainUnigramModel
  simp only [hw, hp, Run.map]

theorem mergeLoop_no_merge {F : Type} (rt : Runtime F) (limit : Int) (fuel : Nat)
    (vocab : List (Subword F)) (h : ¬ (vocab.length : Int) > limit) :
    mergeLoop rt limit fuel vocab = Run.done vocab := by
  cases fuel <;> simp only [mergeLoop] <;> rw [if_neg h]

/-- With at most `vocabSize-1` distinct words the merge loop is not entered: the trainer
returns the normalised initial vocabulary followed by `<unk>`, numbered. -/
theorem TrainUnigramModel_no_merge {F : Type} (rt : Runtime F) (corpus : List GoString)
    (vocabSize : Int) (hmin : -2 ^ 63 < vocabSize) (hmax : vocabSize < 2 ^ 63)
    (hfit : ((distinctWords corpus).length : Int) ≤ vocabSize - 1) :
    TrainUnigramModel rt corpus vocabSize
      = Run.done (assignIDs 0 (normalize rt (initVocab rt (countWords corpus))
          ++ [⟨0, unkPiece, rt.unkProbability⟩])) := by
  have hw : wrapInt64 (vocabSize - 1) = vocabSize - 1 :=
    wrapInt64_of_range _ (by omega) (by omega)
  unfold TrainUnigramModel
  simp only [hw]
  rw [mergeLoop_no_merge rt (vocabSize - 1) _ _ (by rw [initial_length]; omega)]
  rfl

/-! ## Claims about `TrainUnigramModel` -/

/-- C4: vocabulary size.  For every corpus and every `vocabSize` from 2 on (a 64-bit `int`),
`TrainUnigramModel` returns a vocabulary of exactly `min (d, vocabSize-1) + 1` entries, `d`
being the number of distinct words of the corpus; the piece of the last entry is `"<unk>"`,
and with `d = 0` the vocabulary is the single entry `<unk>` with ID 0. -/
theorem C4_TrainUnigramModel_size {F : Type} (rt : Runtime F) (corpus : List GoString)
    (vocabSize : Int) (h2 : 2 ≤ vocabSize) (hmax : vocabSize < 2 ^ 63) :
    ∃ vocab, TrainUnigramModel rt corpus vocabSize = Run.done vocab ∧
      (vocab.length : Int)
        = min ((distinctWords corpus).length : Int) (vocabSize - 1) + 1 ∧
      vocab.getLast?.map (fun s => s.Piece) = some unkPiece ∧
      ((distinctWords corpus).length = 0 → vocab = [⟨0, unkPiece, rt.unkProbability⟩]) := by
  obtain ⟨pieces, hrun, hlen⟩ := TrainUnigramModel_done rt corpus vocabSize h2 hmax
  refine ⟨_, hrun, ?_, ?_, ?_⟩
  · rw [assignIDs_length, List.length_append, List.length_singleton]
    push_cast
    rw [hlen]
  · rw [← List.getLast?_map, assignIDs_map_Piece, List.map_append, List.map_singleton,
      List.getLast?_concat]
  · intro hd
    have hp : pieces.length = 0 := by omega
    rw [List.length_eq_zero.1 hp]
    rfl

/-- Witness of C4: the corpus `["a a b"]` with `vocabSize = 2`, on the exact runtime. -/
theorem C4_TrainUnigramModel_size_witness :
    ∃ vocab, TrainUnigramModel exactRuntime [[97, 32, 97, 32, 98]] 2 = Run.done vocab ∧
      (vocab.length : Int)
        = min ((distinctWords [[97, 32, 97, 32, 98]]).length : Int) (2 - 1) + 1 ∧
      vocab.getLast?.map (fun s => s.Piece) = some unkPiece ∧
      ((distinctWords [[97, 32, 97, 32, 98]]).length = 0 →
        vocab = [⟨0, unkPiece, exactRuntime.unkProbability⟩]) :=
  C4_TrainUnigramModel_size exactRuntime [[97, 32, 97, 32, 98]] 2 (by decide) (by norm_num)

/-- C5: dense IDs.  In every vocabulary returned by `TrainUnigramModel` the entry at
position `i` has ID `i`; the IDs are `0, 1, ..., size-1` in this order, without duplicates. -/
theorem C5_TrainUnigramModel_dense_IDs {F : Type} (rt : Runtime F) (corpus : List GoString)
    (vocabSize : Int) (vocab : List (Subword F))
    (h : TrainUnigramModel rt corpus vocabSize = Run.done vocab) :
    (∀ (i : Nat) (e : Subword F), vocab[i]? = some e → e.ID = (i : Int)) ∧
    vocab.map (fun s => s.ID) = (List.range vocab.length).map Int.ofNat ∧
    (vocab.map (fun s => s.ID)).Nodup := by
  obtain ⟨pieces, hv⟩ := TrainUnigramModel_shape rt corpus vocabSize vocab h
  have hids : vocab.map (fun s => s.ID)
      = (List.range vocab.length).map Int.ofNat := by
    rw [hv, assignIDs_map_ID, assignIDs_length, List.range_eq_range']
  refine ⟨?_, hids, ?_⟩
  · intro i e hi
    have h1 : (vocab.map (fun s => s.ID))[i]? = some e.ID := by
      rw [List.getElem?_map, hi]; rfl
    rw [hids, List.getElem?_map] at h1
    have hlt : i < vocab.length := (List.getElem?_eq_some_iff.1 hi).1
    rw [List.getElem?_range hlt] at h1
    exact (Option.some.inj h1).symm
  · rw [hids]
    exact (List.nodup_range _).map (fun a b hab => Int.ofNat.inj hab)

/-- Witness of C5: the vocabulary trained from `["a a b"]` with `vocabSize = 3`. -/
theorem C5_TrainUnigramModel_dense_IDs_witness :
    TrainUnigramModel exactRuntime [[97, 32, 97, 32, 98]] 3 = Run.done aabVocab ∧
    (∀ (i : Nat) (e : Subword Frac), aabVocab[i]? = some e → e.ID = (i : Int)) ∧
    aabVocab.map (fun s => s.ID) = (List.range aabVocab.length).map Int.ofNat ∧
    (aabVocab.map (fun s => s.ID)).Nodup :=
  ⟨by decide,
    C5_TrainUnigramModel_dense_IDs exactRuntime [[97, 32, 97, 32, 98]] 3 aabVocab (by decide)⟩

/-- C10, the code at the input of the claim: `TrainUnigramModel(["a a b"], 1)` does not
return a vocabulary of size 2.  After the first merge one piece is left, `1 > 0` keeps the
loop going, and reading `vocab[1]` panics; this holds whatever the map order, the sort and
the floating-point results are. -/
theorem C10_TrainUnigramModel_merge_loop_panics {F : Type} (rt : Runtime F) :
    TrainUnigramModel rt [[97, 32, 97, 32, 98]] 1 = Run.panic :=
  TrainUnigramModel_panic rt [[97, 32, 97, 32, 98]] 1 (by norm_num) (by norm_num) (by decide)

/-! ## Decoding what was encoded -/

/-- With pairwise distinct IDs, the piece registered under the ID of an entry is the piece
of that entry. -/
theorem pieceOfID_of_mem {F : Type} (vocab : List (Subword F))
    (hdistinct : vocab.Pairwise (fun a b => a.ID ≠ b.ID)) (e : Subword F) (he : e ∈ vocab) :
    pieceOfID vocab e.ID = some e.Piece := by
  induction vocab with
  | nil => simp at he
  | cons s l ih =>
    rw [List.pairwise_cons] at hdistinct
    obtain ⟨hs, hl⟩ := hdistinct
    unfold pieceOfID
    rcases List.mem_cons.1 he with h | h
    · subst h; simp [List.find?_cons]
    · have hne : ¬ s.ID = e.ID := hs e h
      have := ih hl h
      unfold pieceOfID at this
      simp [List.find?_cons, hne, this]

/-- The bound on the decoded length, for a vocabulary with pairwise distinct IDs that
contains `<unk>`: a matched token decodes to the bytes it consumed, a fallback token
consumes one byte and decodes to the five bytes of `<unk>`. -/
theorem decode_encode_length {F : Type} (vocab : List (Subword F))
    (hdistinct : vocab.Pairwise (fun a b => a.ID ≠ b.ID))
    (hunk : ∃ s ∈ vocab, s.Piece = unkPiece) :
    ∀ (n : Nat) (text : GoString), text.length ≤ n → ∀ ts,
      EncodeText text vocab = Run.done ts →
      (DecodeTokens ts vocab).length ≤ text.length + 4 * ts.count (unkIDOf vocab) := by
  have hfun : ∀ id, mapGet? (idToSubword vocab) id = pieceOfID vocab id :=
    mapGet?_idToSubword vocab hdistinct
  intro n
  induction n with
  | zero =>
    intro text h ts hts
    have : text = [] := List.length_eq_zero.1 (Nat.le_zero.1 h)
    subst this
    rw [EncodeText_nil] at hts
    rw [← Run.done.inj hts, DecodeTokens_nil]
    simp
  | succ n ih =>
    intro text h ts hts
    by_cases hne : text = []
    · subst hne
      rw [EncodeText_nil] at hts
      rw [← Run.done.inj hts, DecodeTokens_nil]
      simp
    · have hpos := longestMatch_length_pos vocab (unkIDOf vocab) text
      have hle := longestMatch_length_le vocab (unkIDOf vocab) text hne
      rw [EncodeText_step vocab text hne] at hts
      obtain ⟨ts', hts', hcons⟩ := (Run.map_done_iff _ _ _).1 hts
      have hdl := List.length_drop (longestMatch vocab (unkIDOf vocab) text).matchLength text
      have hrec := ih _ (by rw [hdl]; omega) ts' hts'
      rw [← hcons, DecodeTokens_cons, List.length_append, hfun, List.count_cons]
      rcases longestMatch_cases vocab (unkIDOf vocab) text with
        ⟨hm, _⟩ | ⟨i, e, ⟨hi, _, _, _⟩, _, hm⟩
      · rcases unkIDOf_cases vocab with ⟨_, hnone⟩ | ⟨j, u, ⟨hj, hu, _⟩, hid⟩
        · obtain ⟨s, hs, hsu⟩ := hunk
          exact absurd hsu (hnone s hs)
        · rw [hm] at hdl hrec ⊢
          simp only at hdl hrec ⊢
          have hlook : pieceOfID vocab (unkIDOf vocab) = some unkPiece := by
            rw [hid, pieceOfID_of_mem vocab hdistinct u (List.getElem?_mem hj), hu]
          rw [hlook]
          simp only [Option.getD_some, beq_self_eq_true, if_true]
          have h5 : unkPiece.length = 5 := rfl
          have htl : 0 < text.length := List.length_pos.2 hne
          omega
      · rw [hm] at hdl hrec hle ⊢
        simp only at hdl hrec hle ⊢
        rw [pieceOfID_of_mem vocab hdistinct e (List.getElem?_mem hi)]
        simp only [Option.getD_some]
        split <;> omega

/-- A trained vocabulary has pairwise distinct IDs and ends in `<unk>`, whose ID is the one
`EncodeText` falls back to. -/
theorem trained_vocab_facts {F : Type} (rt : Runtime F) (corpus : List GoString)
    (vocabSize : Int) (vocab : List (Subword F))
    (h : TrainUnigramModel rt corpus vocabSize = Run.done vocab) :
    vocab.Pairwise (fun a b => a.ID ≠ b.ID) ∧ (∃ s ∈ vocab, s.Piece = unkPiece) ∧
      unkIDOf vocab = (vocab.length : Int) - 1 := by
  obtain ⟨pieces, hv⟩ := TrainUnigramModel_shape rt corpus vocabSize vocab h
  have hids : vocab.map (fun s => s.ID) = (List.range' 0 vocab.length).map Int.ofNat := by
    rw [hv, assignIDs_map_ID, assignIDs_length]
  have happ : vocab
      = assignIDs 0 pieces ++ [⟨(pieces.length : Nat), unkPiece, rt.unkProbability⟩] := by
    rw [hv, assignIDs_append]; simp [assignIDs]
  refine ⟨?_, ?_, ?_⟩
  · have hnd : (vocab.map (fun s => s.ID)).Nodup := by
      rw [hids]
      exact (List.nodup_range' 0 _).map (fun a b hab => Int.ofNat.inj hab)
    exact (List.pairwise_map.1 hnd)
  · exact ⟨⟨(pieces.length : Nat), unkPiece, rt.unkProbability⟩, by rw [happ]; simp, rfl⟩
  · rw [happ, unkIDOf_snoc]
    simp only [if_true, List.length_append, List.length_singleton, assignIDs_length]
    push_cast; ring

/-- C8, as the code has it: for every vocabulary returned by `TrainUnigramModel` and every
text, `EncodeText` returns tokens whose decoding is at most `len(text)` plus 4 bytes per
token equal to the `<unk>` ID (the ID of the last entry); hence at most `5 * len(text)`
bytes, and at most `len(text)` when no token is the `<unk>` ID. -/
theorem C8_round_trip_length {F : Type} (rt : Runtime F) (corpus : List GoString)
    (vocabSize : Int) (vocab : List (Subword F))
    (h : TrainUnigramModel rt corpus vocabSize = Run.done vocab) (text : GoString) :
    ∃ ts, EncodeText text vocab = Run.done ts ∧
      unkIDOf vocab = (vocab.length : Int) - 1 ∧
      (DecodeTokens ts vocab).length ≤ text.length + 4 * ts.count (unkIDOf vocab) ∧
      (DecodeTokens ts vocab).length ≤ 5 * text.length := by
  obtain ⟨hdistinct, hunk, hid⟩ := trained_vocab_facts rt corpus vocabSize vocab h
  obtain ⟨ts, hts, hlen, _⟩ := EncodeText_done vocab text
  have hb := decode_encode_length vocab hdistinct hunk text.length text (le_refl _) ts hts
  have hc : ts.count (unkIDOf vocab) ≤ ts.length := List.count_le_length _ _
  exact ⟨ts, hts, hid, hb, by omega⟩

/-- Witness of C8: the vocabulary trained from `["a a b"]` with `vocabSize = 3` and the
text `"ax"`. -/
theorem C8_round_trip_length_witness :
    TrainUnigramModel exactRuntime [[97, 32, 97, 32, 98]] 3 = Run.done aabVocab ∧
    ∃ ts, EncodeText [97, 120] aabVocab = Run.done ts ∧
      unkIDOf aabVocab = (aabVocab.length : Int) - 1 ∧
      (DecodeTokens ts aabVocab).length
        ≤ ([97, 120] : GoString).length + 4 * ts.count (unkIDOf aabVocab) ∧
      (DecodeTokens ts aabVocab).length ≤ 5 * ([97, 120] : GoString).length :=
  ⟨by decide,
    C8_round_trip_length exactRuntime [[97, 32, 97, 32, 98]] 3 aabVocab (by decide)
      [97, 120]⟩

/-- C8 as stated fails: the vocabulary trained from the empty corpus with `vocabSize = 2` is
`[<unk>]`; the text `"x"` (1 byte) encodes to `[0]`, which decodes to `"<unk>"` (5 bytes). -/
theorem C8_round_trip_length_counterexample :
    TrainUnigramModel exactRuntime [] 2 = Run.done [⟨0, unkPiece, ⟨1, 1000⟩⟩] ∧
    EncodeText [120] ([⟨0, unkPiece, ⟨1, 1000⟩⟩] : List (Subword Frac)) = Run.done [0] ∧
    DecodeTokens [0] ([⟨0, unkPiece, ⟨1, 1000⟩⟩] : List (Subword Frac)) = unkPiece ∧
    ¬ (DecodeTokens [0] ([⟨0, unkPiece, ⟨1, 1000⟩⟩] : List (Subword Frac))).length
        ≤ ([120] : GoString).length := by
  decide

/-! ## The pieces are concatenations of the corpus words -/

/-- The keys of `wordCounts` are the distinct words, each once. -/
theorem countWords_keys_perm (corpus : List GoString) :
    List.Perm ((countWords corpus).map Prod.fst) (distinctWords corpus) := by
  unfold countWords distinctWords
  rw [foldl_flatMap]
  obtain ⟨h₁, h₂⟩ := foldl_countWord_keys (corpus.flatMap splitSpace) [] (by simp)
  rw [List.perm_ext_iff_of_nodup h₁ (List.nodup_dedup _)]
  intro w
  rw [h₂ w, List.mem_dedup]; simp

/-- The pieces that enter the merge loop are the distinct words, each once. -/
theorem initial_pieces_perm {F : Type} (rt : Runtime F) (corpus : List GoString) :
    List.Perm ((normalize rt (initVocab rt (countWords corpus))).map (fun s => s.Piece))
      (distinctWords corpus) := by
  have h : (normalize rt (initVocab rt (countWords corpus))).map (fun s => s.Piece)
      = (rt.rangeOrder (countWords corpus)).map Prod.fst := by
    simp [normalize, initVocab, List.map_map, Function.comp_def]
  rw [h]
  exact ((rt.rangeOrder_perm _).map Prod.fst).trans (countWords_keys_perm corpus)

/-- Every list of pieces is, piece by piece, the concatenation of singleton groups. -/
theorem forall₂_isConcatOf_singletons {F : Type} (vocab : List (Subword F)) :
    List.Forall₂ IsConcatOf vocab ((vocab.map (fun s => s.Piece)).map (fun w => [w])) := by
  induction vocab with
  | nil => exact List.Forall₂.nil
  | cons s l ih =>
    refine List.Forall₂.cons ⟨List.cons_ne_nil _ _, ?_⟩ ih
    simp

/-- The merge loop regroups the words and loses none: what it returns is, piece by piece,
the concatenation of non-empty groups that together hold the words it started from. -/
theorem mergeLoop_groups {F : Type} (rt : Runtime F) (limit : Int) :
    ∀ (fuel : Nat) (vocab : List (Subword F)) (gs : List (List GoString))
      (v : List (Subword F)), List.Forall₂ IsConcatOf vocab gs →
      mergeLoop rt limit fuel vocab = Run.done v →
      ∃ gs', List.Forall₂ IsConcatOf v gs' ∧ List.Perm gs'.flatten gs.flatten := by
  intro fuel
  induction fuel with
  | zero =>
    intro vocab gs v hgs hrun
    simp only [mergeLoop] at hrun
    split at hrun
    · cases hrun
    · exact ⟨gs, by rw [← Run.done.inj hrun]; exact hgs, List.Perm.refl _⟩
  | succ fuel ih =>
    intro vocab gs v hgs hrun
    simp only [mergeLoop] at hrun
    split at hrun
    · have hperm := rt.sortSlice_perm (fun a b => rt.lt a.Probability b.Probability) vocab
      obtain ⟨gs₁, hgs₁, hp₁⟩ := List.perm_comp_forall₂ hperm hgs
      cases hs : rt.sortSlice (fun a b => rt.lt a.Probability b.Probability) vocab with
      | nil => rw [hs] at hrun; cases hrun
      | cons a tl =>
        cases tl with
        | nil => rw [hs] at hrun; cases hrun
        | cons b rest =>
          rw [hs] at hrun hgs₁
          simp only at hrun
          obtain ⟨ga, gs₂, ha, htl, hgs₁eq⟩ := List.forall₂_cons_left_iff.1 hgs₁
          obtain ⟨gb, grest, hb, hrest, hgs₂eq⟩ := List.forall₂_cons_left_iff.1 htl
          subst hgs₂eq
          subst hgs₁eq
          have hnew : List.Forall₂ IsConcatOf (rest ++ [mergePieces rt a b])
              (grest ++ [ga ++ gb]) := by
            refine List.rel_append hrest (List.Forall₂.cons ⟨?_, ?_⟩ List.Forall₂.nil)
            · intro h
              exact ha.1 (List.append_eq_nil.1 h).1
            · simp [mergePieces, ha.2, hb.2]
          obtain ⟨gs', hgs', hp'⟩ := ih _ _ v hnew hrun
          refine ⟨gs', hgs', hp'.trans (List.Perm.trans ?_ hp₁.flatten)⟩
          simp only [List.flatten_append, List.flatten_cons, List.flatten_nil,
            List.append_nil]
          exact List.perm_append_comm.trans (by rw [List.append_assoc])
    · exact ⟨gs, by rw [← Run.done.inj hrun]; exact hgs, List.Perm.refl _⟩

/-- The pieces of a returned vocabulary, `<unk>` apart: non-empty groups of the distinct
words of the corpus, every word in one group, once. -/
theorem TrainUnigramModel_groups {F : Type} (rt : Runtime F) (corpus : List GoString)
    (vocabSize : Int) (vocab : List (Subword F))
    (h : TrainUnigramModel rt corpus vocabSize = Run.done vocab) :
    ∃ pieces gs, vocab = assignIDs 0 (pieces ++ [⟨0, unkPiece, rt.unkProbability⟩]) ∧
      List.Forall₂ IsConcatOf pieces gs ∧ List.Perm gs.flatten (distinctWords corpus) := by
  unfold TrainUnigramModel at h
  obtain ⟨pieces, hrun, hp⟩ := (Run.map_done_iff _ _ _).1 h
  obtain ⟨gs, hgs, hperm⟩ := mergeLoop_groups rt _ _ _ _ pieces
    (forall₂_isConcatOf_singletons _) hrun
  refine ⟨pieces, gs, hp.symm, hgs, hperm.trans ?_⟩
  have hflat : ∀ l : List GoString, (l.map (fun w => [w])).flatten = l := by
    intro l; induction l with
    | nil => rfl
    | cons w l ih => simp [ih]
  rw [hflat]
  exact initial_pieces_perm rt corpus

theorem forall₂_isConcatOf_assignIDs {F : Type} (pieces : List (Subword F))
    (gs : List (List GoString)) (k : Nat) (h : List.Forall₂ IsConcatOf pieces gs) :
    List.Forall₂ IsConcatOf (assignIDs k pieces) gs := by
  induction h generalizing k with
  | nil => exact List.Forall₂.nil
  | cons hs _ ih => exact List.Forall₂.cons hs (ih (k + 1))

/-- The returned vocabulary without its last entry is the numbered pieces. -/
theorem assignIDs_dropLast {F : Type} (pieces : List (Subword F)) (u : Subword F) :
    (assignIDs 0 (pieces ++ [u])).dropLast = assignIDs 0 pieces := by
  rw [assignIDs_append]
  simp [assignIDs]

/-- A returned vocabulary: its entries before the last are concatenations of non-empty
groups that together hold every distinct word once; its last entry is `<unk>`. -/
theorem TrainUnigramModel_structure {F : Type} (rt : Runtime F) (corpus : List GoString)
    (vocabSize : Int) (vocab : List (Subword F))
    (h : TrainUnigramModel rt corpus vocabSize = Run.done vocab) :
    ∃ gs, List.Forall₂ IsConcatOf vocab.dropLast gs ∧
      List.Perm gs.flatten (distinctWords corpus) ∧
      vocab = vocab.dropLast ++
        [⟨(vocab.dropLast.length : Nat), unkPiece, rt.unkProbability⟩] := by
  obtain ⟨pieces, gs, hv, hgs, hperm⟩ := TrainUnigramModel_groups rt corpus vocabSize vocab h
  refine ⟨gs, ?_, hperm, ?_⟩
  · rw [hv, assignIDs_dropLast]
    exact forall₂_isConcatOf_assignIDs pieces gs 0 hgs
  · rw [hv, assignIDs_dropLast, assignIDs_append, assignIDs_length]
    simp [assignIDs]

/-- Byte counts of pieces and of the words of their groups agree. -/
theorem forall₂_isConcatOf_length {F : Type} (pieces : List (Subword F))
    (gs : List (List GoString)) (h : List.Forall₂ IsConcatOf pieces gs) :
    (pieces.map (fun s => s.Piece.length)).sum = (gs.flatten.map List.length).sum := by
  induction h with
  | nil => rfl
  | cons hs _ ih =>
    simp only [List.map_cons, List.sum_cons, List.flatten_cons, List.map_append,
      List.sum_append, ih, hs.2, List.length_flatten]

/-- Every byte of a piece is a byte of a word of the groups. -/
theorem forall₂_isConcatOf_bytes {F : Type} (pieces : List (Subword F))
    (gs : List (List GoString)) (h : List.Forall₂ IsConcatOf pieces gs) :
    ∀ s ∈ pieces, ∀ b ∈ s.Piece, ∃ w ∈ gs.flatten, b ∈ w := by
  induction h with
  | nil => intro s hs; simp at hs
  | cons hs _ ih =>
    intro s hmem b hb
    rcases List.mem_cons.1 hmem with heq | htl
    · subst heq
      rw [hs.2, List.mem_flatten] at hb
      obtain ⟨w, hw, hbw⟩ := hb
      exact ⟨w, by simp [hw], hbw⟩
    · obtain ⟨w, hw, hbw⟩ := ih s htl b hb
      exact ⟨w, by simp [hw], hbw⟩

/-- A piece is empty only if a word of the groups is. -/
theorem forall₂_isConcatOf_nonempty {F : Type} (pieces : List (Subword F))
    (gs : List (List GoString)) (h : List.Forall₂ IsConcatOf pieces gs)
    (hw : ∀ w ∈ gs.flatten, w ≠ []) : ∀ s ∈ pieces, s.Piece ≠ [] := by
  induction h with
  | nil => intro s hs; simp at hs
  | cons hs _ ih =>
    rename_i s₀ g₀ l₀ gs₀
    intro s hmem
    rcases List.mem_cons.1 hmem with heq | htl
    · subst heq
      obtain ⟨w, g', hg⟩ := List.exists_cons_of_ne_nil hs.1
      rw [hs.2, hg]
      intro hnil
      have hwn : w = [] := by
        simp only [List.flatten_cons, List.append_eq_nil] at hnil
        exact hnil.1
      exact hw w (by rw [hg]; simp) hwn
    · exact ih (fun w hwm => hw w (by simp [hwm])) s htl

/-- C19: merging conserves the words.  For every corpus and every `vocabSize` from 2 on,
the trainer returns a vocabulary in which the entries other than the final `<unk>` are,
one by one, the concatenations of non-empty groups of words, the groups together holding
every distinct corpus word exactly once; so the total length of these pieces is the total
length of the distinct corpus words. -/
theorem C19_TrainUnigramModel_words_conserved {F : Type} (rt : Runtime F)
    (corpus : List GoString) (vocabSize : Int) (h2 : 2 ≤ vocabSize)
    (hmax : vocabSize < 2 ^ 63) :
    ∃ vocab gs, TrainUnigramModel rt corpus vocabSize = Run.done vocab ∧
      vocab.getLast?.map (fun s => s.Piece) = some unkPiece ∧
      List.Forall₂ IsConcatOf vocab.dropLast gs ∧
      List.Perm gs.flatten (distinctWords corpus) ∧ gs.flatten.Nodup ∧
      (vocab.dropLast.map (fun s => s.Piece.length)).sum
        = ((distinctWords corpus).map List.length).sum := by
  obtain ⟨pieces, hrun, _⟩ := TrainUnigramModel_done rt corpus vocabSize h2 hmax
  obtain ⟨gs, hgs, hperm, hlast⟩ := TrainUnigramModel_structure rt corpus vocabSize _ hrun
  refine ⟨_, gs, hrun, ?_, hgs, hperm, ?_, ?_⟩
  · rw [← List.getLast?_map, assignIDs_map_Piece, List.map_append, List.map_singleton,
      List.getLast?_concat]
  · exact hperm.nodup_iff.2 (List.nodup_dedup _)
  · rw [forall₂_isConcatOf_length _ gs hgs]
    exact (hperm.map List.length).sum_eq

/-- Witness of C19: the corpus `["a a b"]` with `vocabSize = 2`, on the exact runtime. -/
theorem C19_TrainUnigramModel_words_conserved_witness :
    ∃ vocab gs, TrainUnigramModel exactRuntime [[97, 32, 97, 32, 98]] 2 = Run.done vocab ∧
      vocab.getLast?.map (fun s => s.Piece) = some unkPiece ∧
      List.Forall₂ IsConcatOf vocab.dropLast gs ∧
      List.Perm gs.flatten (distinctWords [[97, 32, 97, 32, 98]]) ∧ gs.flatten.Nodup ∧
      (vocab.dropLast.map (fun s => s.Piece.length)).sum
        = ((distinctWords [[97, 32, 97, 32, 98]]).map List.length).sum :=
  C19_TrainUnigramModel_words_conserved exactRuntime [[97, 32, 97, 32, 98]] 2 (by decide)
    (by norm_num)

/-! ## Claims about the pieces of a trained vocabulary -/

theorem mem_distinctWords (corpus : List GoString) (w : GoString) :
    w ∈ distinctWords corpus ↔ ∃ line ∈ corpus, w ∈ splitSpace line := by
  unfold distinctWords
  rw [List.mem_dedup, List.mem_flatMap]

/-- The words `strings.Split` cuts out contain no space. -/
theorem splitSpace_no_space (line : GoString) : ∀ w ∈ splitSpace line, 32 ∉ w := by
  induction line with
  | nil => intro w hw; simp [splitSpace] at hw; subst hw; simp
  | cons c cs ih =>
    intro w hw
    simp only [splitSpace] at hw
    split at hw
    · rcases List.mem_cons.1 hw with h | h
      · subst h; simp
      · exact ih w h
    · rename_i hc
      split at hw
      · simp only [List.mem_singleton] at hw
        subst hw
        simp only [List.mem_singleton]
        exact fun e => hc e.symm
      · rename_i w₀ ws heq
        rcases List.mem_cons.1 hw with h | h
        · subst h
          intro hmem
          rcases List.mem_cons.1 hmem with h' | h'
          · exact hc h'.symm
          · exact ih w₀ (by rw [heq]; simp) h'
        · exact ih w (by rw [heq]; simp [h])

/-- A byte that occurs in no distinct word occurs in no piece before the final `<unk>`. -/
theorem trained_piece_bytes {F : Type} (rt : Runtime F) (corpus : List GoString)
    (vocabSize : Int) (vocab : List (Subword F))
    (h : TrainUnigramModel rt corpus vocabSize = Run.done vocab) (b : Nat)
    (hb : ∀ w ∈ distinctWords corpus, b ∉ w) : ∀ s ∈ vocab.dropLast, b ∉ s.Piece := by
  obtain ⟨gs, hgs, hperm, _⟩ := TrainUnigramModel_structure rt corpus vocabSize vocab h
  intro s hs hmem
  obtain ⟨w, hw, hbw⟩ := forall₂_isConcatOf_bytes _ gs hgs s hs b hmem
  exact hb w (hperm.mem_iff.1 hw) hbw

/-- The group of which a piece is the concatenation. -/
theorem forall₂_isConcatOf_mem {F : Type} (pieces : List (Subword F))
    (gs : List (List GoString)) (h : List.Forall₂ IsConcatOf pieces gs) :
    ∀ s ∈ pieces, ∃ g ∈ gs, IsConcatOf s g := by
  induction h with
  | nil => intro s hs; simp at hs
  | cons hs _ ih =>
    intro s hmem
    rcases List.mem_cons.1 hmem with heq | htl
    · subst heq
      exact ⟨_, by simp, hs⟩
    · obtain ⟨g, hg, hsg⟩ := ih s htl
      exact ⟨g, by simp [hg], hsg⟩

/-- Without a merge the pieces before the final `<unk>` are the distinct words. -/
theorem trained_dropLast_no_merge {F : Type} (rt : Runtime F) (corpus : List GoString)
    (vocabSize : Int) (vocab : List (Subword F)) (hmin : -2 ^ 63 < vocabSize)
    (hmax : vocabSize < 2 ^ 63)
    (hfit : ((distinctWords corpus).length : Int) ≤ vocabSize - 1)
    (h : TrainUnigramModel rt corpus vocabSize = Run.done vocab) :
    List.Perm (vocab.dropLast.map (fun s => s.Piece)) (distinctWords corpus) := by
  rw [TrainUnigramModel_no_merge rt corpus vocabSize hmin hmax hfit] at h
  rw [← Run.done.inj h, assignIDs_dropLast, assignIDs_map_Piece]
  exact initial_pieces_perm rt corpus

/-- C12, as the code has it: the last entry of every returned vocabulary has the text
`"<unk>"`, so there is at least one such entry.  It is the only one exactly when no entry
before it has that text; this is so whenever no concatenation of one or more distinct
corpus words spells `<unk>`, and, when no merge takes place (at most `vocabSize-1`
distinct words), exactly when `<unk>` is not a corpus word. -/
theorem C12_TrainUnigramModel_unk_entry {F : Type} (rt : Runtime F) (corpus : List GoString)
    (vocabSize : Int) (vocab : List (Subword F))
    (h : TrainUnigramModel rt corpus vocabSize = Run.done vocab) :
    vocab.getLast?.map (fun s => s.Piece) = some unkPiece ∧
    1 ≤ (vocab.filter (fun s => decide (s.Piece = unkPiece))).length ∧
    ((vocab.filter (fun s => decide (s.Piece = unkPiece))).length = 1 ↔
      ∀ s ∈ vocab.dropLast, s.Piece ≠ unkPiece) ∧
    ((∀ g : List GoString, g ≠ [] → g.Nodup → (∀ w ∈ g, w ∈ distinctWords corpus) →
        g.flatten ≠ unkPiece) →
      (vocab.filter (fun s => decide (s.Piece = unkPiece))).length = 1) ∧
    (vocabSize < 2 ^ 63 → ((distinctWords corpus).length : Int) ≤ vocabSize - 1 →
      ((vocab.filter (fun s => decide (s.Piece = unkPiece))).length = 1 ↔
        unkPiece ∉ distinctWords corpus)) := by
  obtain ⟨gs, hgs, hperm, hlast⟩ := TrainUnigramModel_structure rt corpus vocabSize vocab h
  have hfilter : (vocab.filter (fun s => decide (s.Piece = unkPiece))).length
      = (vocab.dropLast.filter (fun s => decide (s.Piece = unkPiece))).length + 1 := by
    conv_lhs => rw [hlast]
    rw [List.filter_append, List.length_append]
    simp
  have hiff : (vocab.filter (fun s => decide (s.Piece = unkPiece))).length = 1 ↔
      ∀ s ∈ vocab.dropLast, s.Piece ≠ unkPiece := by
    rw [hfilter]
    constructor
    · intro hlen s hs hsu
      have hnil : vocab.dropLast.filter (fun s => decide (s.Piece = unkPiece)) = [] :=
        List.length_eq_zero.1 (by omega)
      rw [List.filter_eq_nil_iff] at hnil
      exact hnil s hs (by simpa using hsu)
    · intro hall
      have hnil : vocab.dropLast.filter (fun s => decide (s.Piece = unkPiece)) = [] := by
        rw [List.filter_eq_nil_iff]
        intro s hs hsu
        exact hall s hs (by simpa using hsu)
      rw [hnil]; rfl
  refine ⟨?_, by omega, hiff, ?_, ?_⟩
  · rw [hlast, List.getLast?_concat]; rfl
  · intro hno
    rw [hiff]
    intro s hs hsu
    obtain ⟨g, hg, hgne, hsg⟩ := forall₂_isConcatOf_mem _ gs hgs s hs
    have hsub : g.Sublist gs.flatten := List.sublist_flatten_of_mem hg
    have hnd : gs.flatten.Nodup := hperm.nodup_iff.2 (List.nodup_dedup _)
    refine hno g hgne (hsub.nodup hnd) ?_ ?_
    · intro w hw
      exact hperm.mem_iff.1 (hsub.subset hw)
    · rw [← hsg, hsu]
  · intro hmax hfit
    have hmin : -2 ^ 63 < vocabSize := by omega
    have hp := trained_dropLast_no_merge rt corpus vocabSize vocab hmin hmax hfit h
    rw [hiff]
    constructor
    · intro hall hmem
      obtain ⟨s, hs, hsp⟩ := List.mem_map.1 (hp.mem_iff.2 hmem)
      exact hall s hs hsp
    · intro hnot s hs hsu
      exact hnot (hp.mem_iff.1 (List.mem_map.2 ⟨s, hs, hsu⟩))

/-- Witness of C12: the vocabulary trained from `["a a b"]` with `vocabSize = 3`. -/
theorem C12_TrainUnigramModel_unk_entry_witness :
    TrainUnigramModel exactRuntime [[97, 32, 97, 32, 98]] 3 = Run.done aabVocab ∧
    aabVocab.getLast?.map (fun s => s.Piece) = some unkPiece ∧
    1 ≤ (aabVocab.filter (fun s => decide (s.Piece = unkPiece))).length ∧
    ((aabVocab.filter (fun s => decide (s.Piece = unkPiece))).length = 1 ↔
      ∀ s ∈ aabVocab.dropLast, s.Piece ≠ unkPiece) ∧
    ((∀ g : List GoString, g ≠ [] → g.Nodup →
        (∀ w ∈ g, w ∈ distinctWords [[97, 32, 97, 32, 98]]) → g.flatten ≠ unkPiece) →
      (aabVocab.filter (fun s => decide (s.Piece = unkPiece))).length = 1) ∧
    ((3 : Int) < 2 ^ 63 → ((distinctWords [[97, 32, 97, 32, 98]]).length : Int) ≤ 3 - 1 →
      ((aabVocab.filter (fun s => decide (s.Piece = unkPiece))).length = 1 ↔
        unkPiece ∉ distinctWords [[97, 32, 97, 32, 98]])) :=
  ⟨by decide,
    C12_TrainUnigramModel_unk_entry exactRuntime [[97, 32, 97, 32, 98]] 3 aabVocab
      (by decide)⟩

/-- C12 as stated fails: trained from the corpus `["<unk>"]` with `vocabSize = 3`, the
vocabulary has two entries with the text `"<unk>"`, the word and the appended entry. -/
theorem C12_TrainUnigramModel_unk_entry_counterexample :
    TrainUnigramModel exactRuntime [unkPiece] 3
      = Run.done [⟨0, unkPiece, ⟨1, 1⟩⟩, ⟨1, unkPiece, ⟨1, 1000⟩⟩] ∧
    (([⟨0, unkPiece, ⟨1, 1⟩⟩, ⟨1, unkPiece, ⟨1, 1000⟩⟩] : List (Subword Frac)).filter
      (fun s => decide (s.Piece = unkPiece))).length = 2 := by
  decide

/-- C13, as the code has it: every entry of a returned vocabulary has a non-empty piece
when the empty string is not among the words of the corpus (no line is empty, starts or
ends with a space, or has two spaces in a row). -/
theorem C13_TrainUnigramModel_nonempty_pieces {F : Type} (rt : Runtime F)
    (corpus : List GoString) (vocabSize : Int) (vocab : List (Subword F))
    (h : TrainUnigramModel rt corpus vocabSize = Run.done vocab)
    (hw : ([] : GoString) ∉ distinctWords corpus) : ∀ s ∈ vocab, s.Piece ≠ [] := by
  obtain ⟨gs, hgs, hperm, hlast⟩ := TrainUnigramModel_structure rt corpus vocabSize vocab h
  intro s hs
  rw [hlast] at hs
  rcases List.mem_append.1 hs with hd | hu
  · refine forall₂_isConcatOf_nonempty _ gs hgs ?_ s hd
    intro w hwm hnil
    subst hnil
    exact hw (hperm.mem_iff.1 hwm)
  · simp only [List.mem_singleton] at hu
    subst hu
    simp [unkPiece]

/-- Witness of C13: the vocabulary trained from `["a a b"]` with `vocabSize = 3`. -/
theorem C13_TrainUnigramModel_nonempty_pieces_witness :
    TrainUnigramModel exactRuntime [[97, 32, 97, 32, 98]] 3 = Run.done aabVocab ∧
    ([] : GoString) ∉ distinctWords [[97, 32, 97, 32, 98]] ∧
    ∀ s ∈ aabVocab, s.Piece ≠ [] :=
  ⟨by decide, by decide,
    C13_TrainUnigramModel_nonempty_pieces exactRuntime [[97, 32, 97, 32, 98]] 3 aabVocab
      (by decide) (by decide)⟩

/-- C13 as stated fails: the corpus of one empty line has the empty string as its only
word, and with `vocabSize = 3` the returned vocabulary has an entry with the empty piece. -/
theorem C13_TrainUnigramModel_nonempty_pieces_counterexample :
    TrainUnigramModel exactRuntime [[]] 3
      = Run.done [⟨0, [], ⟨1, 1⟩⟩, ⟨1, unkPiece, ⟨1, 1000⟩⟩] ∧
    ∃ s ∈ ([⟨0, [], ⟨1, 1⟩⟩, ⟨1, unkPiece, ⟨1, 1000⟩⟩] : List (Subword Frac)),
      s.Piece = [] :=
  ⟨by decide, ⟨0, [], ⟨1, 1⟩⟩, by simp, rfl⟩

/-- C20: no piece contains a space.  In every vocabulary the trainer returns no piece has
the byte 32; so, encoding with such a vocabulary, at every remainder the scan reaches that
starts with a space the token is the `<unk>` ID (the ID of the last entry) and exactly the
space is consumed. -/
theorem C20_TrainUnigramModel_no_space {F : Type} (rt : Runtime F) (corpus : List GoString)
    (vocabSize : Int) (vocab : List (Subword F))
    (h : TrainUnigramModel rt corpus vocabSize = Run.done vocab) :
    (∀ s ∈ vocab, 32 ∉ s.Piece) ∧
    ∀ text cs, Reached vocab text (32 :: cs) →
      ∃ pre rest,
        EncodeText text vocab = Run.done (pre ++ ((vocab.length : Int) - 1) :: rest) ∧
        EncodeText (32 :: cs) vocab = Run.done (((vocab.length : Int) - 1) :: rest) ∧
        EncodeText cs vocab = Run.done rest := by
  obtain ⟨gs, hgs, hperm, hlast⟩ := TrainUnigramModel_structure rt corpus vocabSize vocab h
  obtain ⟨_, _, hid⟩ := trained_vocab_facts rt corpus vocabSize vocab h
  have hwords : ∀ w ∈ distinctWords corpus, 32 ∉ w := by
    intro w hw
    obtain ⟨line, _, hwl⟩ := (mem_distinctWords corpus w).1 hw
    exact splitSpace_no_space line w hwl
  have hnospace : ∀ s ∈ vocab, 32 ∉ s.Piece := by
    intro s hs
    rw [hlast] at hs
    rcases List.mem_append.1 hs with hd | hu
    · exact trained_piece_bytes rt corpus vocabSize vocab h 32 hwords s hd
    · simp only [List.mem_singleton] at hu
      subst hu
      show 32 ∉ unkPiece
      decide
  refine ⟨hnospace, ?_⟩
  intro text cs hreached
  have hno : ∀ s ∈ vocab, s.Piece ≠ [] → ¬ s.Piece <+: 32 :: cs := by
    intro s hs hne hp
    obtain ⟨b, tl, hb⟩ := List.exists_cons_of_ne_nil hne
    rw [hb] at hp
    have hb32 : b = 32 := by
      obtain ⟨t, ht⟩ := hp
      simp only [List.cons_append, List.cons.injEq] at ht
      exact ht.1
    exact hnospace s hs (by rw [hb, hb32]; simp)
  obtain ⟨pre, ts, hts, hall⟩ := EncodeText_reached vocab text (32 :: cs) hreached
  obtain ⟨rest, hrest, _⟩ := EncodeText_done vocab cs
  have hstep : EncodeText (32 :: cs) vocab = Run.done (((vocab.length : Int) - 1) :: rest) := by
    rw [EncodeText_step vocab (32 :: cs) (List.cons_ne_nil _ _),
      longestMatch_fallback vocab _ (32 :: cs) hno]
    simp only [List.drop_succ_cons, List.drop_zero]
    rw [hrest, hid]; rfl
  rw [hstep] at hts
  refine ⟨pre, rest, ?_, hstep, hrest⟩
  rw [hall, ← Run.done.inj hts]

/-- Witness of C20: the vocabulary trained from `["a a b"]` with `vocabSize = 3`. -/
theorem C20_TrainUnigramModel_no_space_witness :
    TrainUnigramModel exactRuntime [[97, 32, 97, 32, 98]] 3 = Run.done aabVocab ∧
    (∀ s ∈ aabVocab, 32 ∉ s.Piece) ∧
    ∀ text cs, Reached aabVocab text (32 :: cs) →
      ∃ pre rest,
        EncodeText text aabVocab = Run.done (pre ++ ((aabVocab.length : Int) - 1) :: rest) ∧
        EncodeText (32 :: cs) aabVocab = Run.done (((aabVocab.length : Int) - 1) :: rest) ∧
        EncodeText cs aabVocab = Run.done rest :=
  ⟨by decide,
    C20_TrainUnigramModel_no_space exactRuntime [[97, 32, 97, 32, 98]] 3 aabVocab
      (by decide)⟩

/-! ## Further claims -/

/-- For `vocabSize ≤ 0` the loop condition holds even on an empty slice, and the trainer
panics whatever the corpus is. -/
theorem TrainUnigramModel_panic_nonpositive {F : Type} (rt : Runtime F)
    (corpus : List GoString) (vocabSize : Int) (hmin : -2 ^ 63 < vocabSize)
    (h0 : vocabSize ≤ 0) : TrainUnigramModel rt corpus vocabSize = Run.panic := by
  have hw : wrapInt64 (vocabSize - 1) = vocabSize - 1 :=
    wrapInt64_of_range _ (by omega) (by omega)
  have hp := mergeLoop_panic rt (vocabSize - 1) (by omega)
    ((normalize rt (initVocab rt (countWords corpus))).length + 1)
    (normalize rt (initVocab rt (countWords corpus))) (Nat.lt_succ_self _) (by omega)
  unfold TrainUnigramModel
  simp only [hw, hp, Run.map]

/-- C11, the code on the inputs of the claim: for every corpus and every `vocabSize < 1`
(above the least `int`), `TrainUnigramModel` does not return `[<unk>]`; `vocabSize-1` is
negative, the loop runs on any slice, the empty one included, and reading `vocab[0]` or
`vocab[1]` panics. -/
theorem C11_TrainUnigramModel_below_one_panics {F : Type} (rt : Runtime F)
    (corpus : List GoString) (vocabSize : Int) (hmin : -2 ^ 63 < vocabSize)
    (h : vocabSize < 1) : TrainUnigramModel rt corpus vocabSize = Run.panic :=
  TrainUnigramModel_panic_nonpositive rt corpus vocabSize hmin (by omega)

/-- Witness of C11: the empty corpus with `vocabSize = 0`. -/
theorem C11_TrainUnigramModel_below_one_panics_witness :
    TrainUnigramModel exactRuntime [] 0 = Run.panic :=
  C11_TrainUnigramModel_below_one_panics exactRuntime [] 0 (by norm_num) (by norm_num)

/-- C17, the code at an input of the claim: the text `"é"` is one character of two bytes
(195, 169); with the vocabulary `[<unk>]` the fallback is used twice, once per byte, and
`EncodeText` returns two tokens. -/
theorem C17_EncodeText_fallback_per_byte {F : Type} (p : F) :
    EncodeText [195, 169] [⟨0, unkPiece, p⟩] = Run.done [0, 0] :=
  rfl

/-- Round trip when every byte of the text is a piece, by induction on the length. -/
theorem decode_encode_eq {F : Type} (vocab : List (Subword F))
    (hdistinct : vocab.Pairwise (fun a b => a.ID ≠ b.ID)) :
    ∀ (n : Nat) (text : GoString), text.length ≤ n →
      (∀ b ∈ text, ∃ s ∈ vocab, s.Piece = [b]) →
      ∃ ts, EncodeText text vocab = Run.done ts ∧ DecodeTokens ts vocab = text := by
  intro n
  induction n with
  | zero =>
    intro text h _
    have : text = [] := List.length_eq_zero.1 (Nat.le_zero.1 h)
    subst this
    exact ⟨[], EncodeText_nil vocab, DecodeTokens_nil vocab⟩
  | succ n ih =>
    intro text h hbytes
    cases htext : text with
    | nil => exact ⟨[], EncodeText_nil vocab, DecodeTokens_nil vocab⟩
    | cons b cs =>
      have hne : text ≠ [] := by rw [htext]; exact List.cons_ne_nil _ _
      rcases longestMatch_cases vocab (unkIDOf vocab) text with
        ⟨_, hnone⟩ | ⟨i, e, ⟨hi, hp, _, _⟩, hepos, hm⟩
      · obtain ⟨s, hs, hsb⟩ := hbytes b (by rw [htext]; simp)
        have hpre : s.Piece <+: text := by
          rw [hsb, htext]; exact ⟨cs, rfl⟩
        have := hnone s hs hpre
        rw [hsb] at this
        exact absurd this (List.cons_ne_nil _ _)
      · obtain ⟨t, ht⟩ := hp
        have hdrop : text.drop e.Piece.length = t := by
          rw [← ht]; exact List.drop_left _ _
        have hlen : t.length ≤ n := by
          have h1 : text.length = e.Piece.length + t.length := by
            rw [← ht, List.length_append]
          have h2 : 0 < e.Piece.length := List.length_pos.2 hepos
          omega
        obtain ⟨ts, hts, hdec⟩ := ih t hlen
          (fun b' hb' => hbytes b' (by rw [← ht]; exact List.mem_append_right _ hb'))
        refine ⟨e.ID :: ts, ?_, ?_⟩
        · rw [← htext, EncodeText_step vocab text hne, hm]
          simp only
          rw [hdrop, hts]; rfl
        · rw [DecodeTokens_cons, mapGet?_idToSubword vocab hdistinct,
            pieceOfID_of_mem vocab hdistinct e (List.getElem?_mem hi), hdec, ← htext, ← ht]
          rfl

/-- C18: conditional round trip.  For every vocabulary with pairwise distinct IDs and
every text each byte of which is, alone, a piece of the vocabulary, decoding the encoding
of the text gives the text back. -/
theorem C18_round_trip_of_byte_pieces {F : Type} (vocab : List (Subword F))
    (hdistinct : vocab.Pairwise (fun a b => a.ID ≠ b.ID)) (text : GoString)
    (hbytes : ∀ b ∈ text, ∃ s ∈ vocab, s.Piece = [b]) :
    ∃ ts, EncodeText text vocab = Run.done ts ∧ DecodeTokens ts vocab = text :=
  decode_encode_eq vocab hdistinct text.length text (le_refl _) hbytes

/-- Witness of C18: the pieces `"a"`, `"b"`, `"ab"` and the text `"aba"`. -/
theorem C18_round_trip_of_byte_pieces_witness :
    ∃ ts, EncodeText [97, 98, 97]
        ([⟨0, [97], 0⟩, ⟨1, [98], 0⟩, ⟨2, [97, 98], 0⟩] : List (Subword Nat)) = Run.done ts ∧
      DecodeTokens ts ([⟨0, [97], 0⟩, ⟨1, [98], 0⟩, ⟨2, [97, 98], 0⟩] : List (Subword Nat))
        = [97, 98, 97] :=
  C18_round_trip_of_byte_pieces
    ([⟨0, [97], 0⟩, ⟨1, [98], 0⟩, ⟨2, [97, 98], 0⟩] : List (Subword Nat)) (by decide)
    [97, 98, 97]
    (by
      intro b hb
      simp only [List.mem_cons, List.mem_singleton, List.not_mem_nil, or_false] at hb
      rcases hb with h | h | h <;> subst h
      · exact ⟨⟨0, [97], 0⟩, by simp, rfl⟩
      · exact ⟨⟨1, [98], 0⟩, by simp, rfl⟩
      · exact ⟨⟨0, [97], 0⟩, by simp, rfl⟩)

/-- The loop of the embedding, one iteration unfolded: while the condition holds, the body
`mergeStep` runs and the loop goes on with its result. -/
theorem mergeLoop_succ {F : Type} (rt : Runtime F) (limit : Int) (fuel : Nat)
    (vocab : List (Subword F)) :
    mergeLoop rt limit (fuel + 1) vocab
      = if (vocab.length : Int) > limit then
          match mergeStep rt vocab with
          | Run.done v => mergeLoop rt limit fuel v
          | Run.panic => Run.panic
          | Run.timeout => Run.timeout
        else Run.done vocab := by
  simp only [mergeLoop, mergeStep]
  split
  · split <;> rfl
  · rfl

/-- Inserting into a sorted list keeps it sorted, the order being one on the elements at
hand. -/
theorem pairwise_orderedInsert {α : Type} (less : α → α → Bool) (u : List α)
    (h : StrictWeakOn less u) (a : α) (ha : a ∈ u) :
    ∀ s : List α, (∀ x ∈ s, x ∈ u) → s.Pairwise (fun x y => less y x = false) →
      (s.orderedInsert (fun x y => less y x = false) a).Pairwise
        (fun x y => less y x = false) := by
  intro s
  induction s with
  | nil => intro _ _; simp
  | cons b s ih =>
    intro hmem hp
    rw [List.pairwise_cons] at hp
    have hb : b ∈ u := hmem b (by simp)
    have hs : ∀ x ∈ s, x ∈ u := fun x hx => hmem x (by simp [hx])
    simp only [List.orderedInsert]
    split
    · rename_i hr
      rw [List.pairwise_cons]
      refine ⟨?_, List.pairwise_cons.2 hp⟩
      intro x hx
      rcases List.mem_cons.1 hx with hxb | hxs
      · rw [hxb]; exact hr
      · exact h.2 a ha b hb x (hs x hxs) hr (hp.1 x hxs)
    · rename_i hr
      have hba : less b a = true := by
        cases hb' : less b a
        · exact absurd hb' hr
        · rfl
      rw [List.pairwise_cons]
      refine ⟨?_, ih hs hp.2⟩
      intro x hx
      rcases (List.mem_orderedInsert _).1 hx with hxa | hxs
      · rw [hxa]; exact h.1 b hb a ha hba
      · exact hp.1 x hxs

/-- Insertion sort keeps the contract of `sort.Slice`. -/
theorem insertionSort_pairwise {α : Type} (less : α → α → Bool) (u : List α)
    (h : StrictWeakOn less u) :
    ∀ l : List α, (∀ x ∈ l, x ∈ u) →
      (l.insertionSort (fun x y => less y x = false)).Pairwise
        (fun x y => less y x = false) := by
  intro l
  induction l with
  | nil => intro _; simp
  | cons a t ih =>
    intro hmem
    have ht : ∀ x ∈ t, x ∈ u := fun x hx => hmem x (by simp [hx])
    rw [List.insertionSort]
    refine pairwise_orderedInsert less u h a (hmem a (by simp)) _ ?_ (ih ht)
    intro x hx
    exact ht x ((List.perm_insertionSort _ t).mem_iff.1 hx)

/-- The sort of the exact runtime keeps the contract of `sort.Slice`. -/
theorem exactRuntime_sortContract : SortContract exactRuntime := by
  intro less l h
  exact insertionSort_pairwise less l h l (fun _ hx => hx)

/-- The sorts of the other two runtimes of this file keep the contract as well. -/
theorem reverseRuntime_ratRuntime_sortContract :
    SortContract reverseRuntime ∧ SortContract ratRuntime :=
  ⟨fun less l h => insertionSort_pairwise less l h l (fun _ hx => hx),
    fun less l h => insertionSort_pairwise less l h l (fun _ hx => hx)⟩

/-- C14: one merge step.  With `sort.Slice` keeping its contract and the comparison of
probabilities a strict weak order on the working set (no NaN), an iteration of the merge
loop on at least two pieces takes two pieces `p`, `q` out of the set, `q` not below `p`
and no remaining piece below either; its result is the remaining pieces, unchanged,
followed by one new piece whose text is that of `p` followed by that of `q` and whose
probability is `(prob p + prob q) / 2`, one piece fewer; the loop goes on with this set,
and returns it when it no longer exceeds `vocabSize-1`. -/
theorem C14_merge_step {F : Type} (rt : Runtime F) (hsort : SortContract rt) (limit : Int)
    (fuel : Nat) (vocab : List (Subword F)) (h2 : 2 ≤ vocab.length)
    (hlimit : (vocab.length : Int) > limit)
    (horder : StrictWeakOn (lessProbability rt) vocab) :
    ∃ p q rest, List.Perm (p :: q :: rest) vocab ∧
      rt.lt q.Probability p.Probability = false ∧
      (∀ r ∈ rest, rt.lt r.Probability p.Probability = false ∧
        rt.lt r.Probability q.Probability = false) ∧
      mergeStep rt vocab
        = Run.done (rest ++ [⟨0, p.Piece ++ q.Piece,
            rt.div (rt.add p.Probability q.Probability) (rt.ofInt 2)⟩]) ∧
      mergeLoop rt limit (fuel + 1) vocab
        = mergeLoop rt limit fuel
            (rest ++ [⟨0, p.Piece ++ q.Piece,
              rt.div (rt.add p.Probability q.Probability) (rt.ofInt 2)⟩]) ∧
      ((rest.length : Int) + 1 ≤ limit →
        mergeLoop rt limit (fuel + 1) vocab
          = Run.done (rest ++ [⟨0, p.Piece ++ q.Piece,
              rt.div (rt.add p.Probability q.Probability) (rt.ofInt 2)⟩])) ∧
      (rest ++ [(⟨0, p.Piece ++ q.Piece,
          rt.div (rt.add p.Probability q.Probability) (rt.ofInt 2)⟩ : Subword F)]).length + 1
        = vocab.length := by
  have hperm := rt.sortSlice_perm (lessProbability rt) vocab
  have hlen := hperm.length_eq
  have hsorted := hsort (lessProbability rt) vocab horder
  cases hs : rt.sortSlice (lessProbability rt) vocab with
  | nil => rw [hs] at hlen; simp only [List.length_nil] at hlen; omega
  | cons p tl =>
    cases tl with
    | nil => rw [hs] at hlen; simp only [List.length_cons, List.length_nil] at hlen; omega
    | cons q rest =>
      rw [hs] at hperm hlen hsorted
      rw [List.pairwise_cons, List.pairwise_cons] at hsorted
      obtain ⟨hp, hq, _⟩ := hsorted
      have hs' : rt.sortSlice (fun a b => rt.lt a.Probability b.Probability) vocab
          = p :: q :: rest := hs
      have hstep : mergeStep rt vocab
          = Run.done (rest ++ [⟨0, p.Piece ++ q.Piece,
              rt.div (rt.add p.Probability q.Probability) (rt.ofInt 2)⟩]) := by
        simp only [mergeStep]
        rw [hs']
        rfl
      have hloop : mergeLoop rt limit (fuel + 1) vocab
          = mergeLoop rt limit fuel
              (rest ++ [⟨0, p.Piece ++ q.Piece,
                rt.div (rt.add p.Probability q.Probability) (rt.ofInt 2)⟩]) := by
        rw [mergeLoop_succ, if_pos hlimit, hstep]
      refine ⟨p, q, rest, hperm, ?_, ?_, hstep, hloop, ?_, ?_⟩
      · exact hp q (by simp)
      · intro r hr
        exact ⟨hp r (by simp [hr]), hq r hr⟩
      · intro hstop
        rw [hloop]
        apply mergeLoop_no_merge
        simp only [List.length_append, List.length_singleton]
        push_cast
        omega
      · simp only [List.length_cons, List.length_append, List.length_nil] at hlen ⊢
        omega

/-- Witness of C14: the pieces `a` (2/4), `b` (1/4), `c` (1/4) of the corpus `["a a b c"]`
with `vocabSize-1 = 2`, on the exact runtime: `b` and `c` are merged, and the loop returns
`a`, `bc`. -/
theorem C14_merge_step_witness :
    mergeLoop exactRuntime 2 (2 + 1) aabcPieces
      = Run.done [⟨0, [97], ⟨2, 4⟩⟩, ⟨0, [98, 99], ⟨8, 32⟩⟩] ∧
    ∃ p q rest, List.Perm (p :: q :: rest) aabcPieces ∧
      exactRuntime.lt q.Probability p.Probability = false ∧
      (∀ r ∈ rest, exactRuntime.lt r.Probability p.Probability = false ∧
        exactRuntime.lt r.Probability q.Probability = false) ∧
      mergeStep exactRuntime aabcPieces
        = Run.done (rest ++ [⟨0, p.Piece ++ q.Piece,
            exactRuntime.div (exactRuntime.add p.Probability q.Probability)
              (exactRuntime.ofInt 2)⟩]) ∧
      mergeLoop exactRuntime 2 (2 + 1) aabcPieces
        = mergeLoop exactRuntime 2 2
            (rest ++ [⟨0, p.Piece ++ q.Piece,
              exactRuntime.div (exactRuntime.add p.Probability q.Probability)
                (exactRuntime.ofInt 2)⟩]) ∧
      ((rest.length : Int) + 1 ≤ 2 →
        mergeLoop exactRuntime 2 (2 + 1) aabcPieces
          = Run.done (rest ++ [⟨0, p.Piece ++ q.Piece,
              exactRuntime.div (exactRuntime.add p.Probability q.Probability)
                (exactRuntime.ofInt 2)⟩])) ∧
      (rest ++ [(⟨0, p.Piece ++ q.Piece,
          exactRuntime.div (exactRuntime.add p.Probability q.Probability)
            (exactRuntime.ofInt 2)⟩ : Subword Frac)]).length + 1
        = aabcPieces.length :=
  ⟨by decide,
    C14_merge_step exactRuntime exactRuntime_sortContract 2 2 aabcPieces (by decide)
      (by decide) ⟨by decide, by decide⟩⟩

/-! ## Runs of the trainer compared -/

/-- The sum of the counts does not depend on the order when the sum is right-commutative,
as without rounding. -/
theorem totalProbability_eq_of_comm {F : Type} (rt₁ rt₂ : Runtime F)
    (hsame : SameArith rt₁ rt₂)
    (hcomm : ∀ t a b : F, rt₁.add (rt₁.add t a) b = rt₁.add (rt₁.add t b) a)
    (wordCounts : List (GoString × Int)) :
    totalProbability rt₁ (initVocab rt₁ wordCounts)
      = totalProbability rt₂ (initVocab rt₂ wordCounts) := by
  obtain ⟨hof, hadd, _, _⟩ := hsame
  have hperm : List.Perm (initVocab rt₁ wordCounts) (initVocab rt₂ wordCounts) := by
    unfold initVocab
    rw [hof]
    exact (((rt₁.rangeOrder_perm wordCounts).trans
      (rt₂.rangeOrder_perm wordCounts).symm).map _)
  unfold totalProbability
  rw [← hadd, ← hof]
  exact hperm.foldl_eq' (fun x _ y _ z => hcomm z x.Probability y.Probability) _

theorem mapGet?_countWord (m : List (GoString × Int)) (w₀ w : GoString) :
    mapGet? (countWord m w₀) w
      = if w₀ = w then some ((mapGet? m w₀).getD 0 + 1) else mapGet? m w := by
  unfold countWord
  rw [mapGet?_mapSet]

/-- The count kept under a word grows by the number of its occurrences. -/
theorem mapGet?_foldl_countWord (words : List GoString) (m : List (GoString × Int))
    (w : GoString) :
    (mapGet? (words.foldl countWord m) w).getD 0
      = (mapGet? m w).getD 0 + (words.count w : Int) := by
  induction words generalizing m with
  | nil => simp
  | cons w₀ ws ih =>
    rw [List.foldl_cons, ih, mapGet?_countWord, List.count_cons]
    by_cases h : w₀ = w
    · subst h; simp; ring
    · simp [h]

theorem mapGet?_of_mem {κ ν : Type} [DecidableEq κ] (m : List (κ × ν))
    (hm : (m.map Prod.fst).Nodup) (k : κ) (v : ν) (h : (k, v) ∈ m) :
    mapGet? m k = some v := by
  induction m with
  | nil => simp at h
  | cons kv rest ih =>
    obtain ⟨k₀, v₀⟩ := kv
    rw [List.map_cons, List.nodup_cons] at hm
    rcases List.mem_cons.1 h with heq | hmem
    · cases heq; simp [mapGet?]
    · have hne : ¬ k₀ = k := by
        intro e
        subst e
        exact hm.1 (List.mem_map.2 ⟨(k₀, v), hmem, rfl⟩)
      simp only [mapGet?, hne, if_false]
      exact ih hm.2 hmem

theorem countWords_eq (corpus : List GoString) :
    countWords corpus = (corpusWords corpus).foldl countWord [] := by
  unfold countWords corpusWords
  rw [foldl_flatMap]

/-- The count kept under a word is the number of its occurrences in the corpus. -/
theorem countWords_mem (corpus : List GoString) (w : GoString) (c : Int)
    (h : (w, c) ∈ countWords corpus) : c = ((corpusWords corpus).count w : Int) := by
  rw [countWords_eq] at h
  obtain ⟨hnd, _⟩ := foldl_countWord_keys (corpusWords corpus) [] (by simp)
  have h1 := mapGet?_of_mem _ hnd w c h
  have h2 := mapGet?_foldl_countWord (corpusWords corpus) [] w
  rw [h1] at h2
  simpa [mapGet?] using h2

theorem sum_mapSet {κ : Type} [DecidableEq κ] (m : List (κ × Int)) (k : κ) (v : Int) :
    ((mapSet m k v).map Prod.snd).sum
      = (m.map Prod.snd).sum - (mapGet? m k).getD 0 + v := by
  induction m with
  | nil => simp [mapSet, mapGet?]
  | cons kv rest ih =>
    obtain ⟨k₀, v₀⟩ := kv
    by_cases h : k₀ = k
    · simp only [mapSet, mapGet?, h, if_true, List.map_cons, List.sum_cons,
        Option.getD_some]
      ring
    · simp only [mapSet, mapGet?, h, if_false, List.map_cons, List.sum_cons, ih]
      ring

theorem sum_foldl_countWord (words : List GoString) (m : List (GoString × Int)) :
    ((words.foldl countWord m).map Prod.snd).sum
      = (m.map Prod.snd).sum + (words.length : Int) := by
  induction words generalizing m with
  | nil => simp
  | cons w₀ ws ih =>
    rw [List.foldl_cons, ih]
    unfold countWord
    rw [sum_mapSet, List.length_cons]
    push_cast
    ring

/-- The counts add up to the number of word occurrences. -/
theorem countWords_sum (corpus : List GoString) :
    ((countWords corpus).map Prod.snd).sum = ((corpusWords corpus).length : Int) := by
  rw [countWords_eq, sum_foldl_countWord]
  simp

theorem foldl_add_eq_sum {α : Type} (f : α → ℚ) (l : List α) (a : ℚ) :
    l.foldl (fun t v => t + f v) a = a + (l.map f).sum := by
  induction l generalizing a with
  | nil => simp
  | cons x l ih => rw [List.foldl_cons, ih, List.map_cons, List.sum_cons]; ring

theorem sum_map_intCast {α : Type} (f : α → Int) (l : List α) :
    (l.map (fun x => ((f x : Int) : ℚ))).sum = (((l.map f).sum : Int) : ℚ) := by
  induction l with
  | nil => simp
  | cons x l ih =>
    rw [List.map_cons, List.sum_cons, ih, List.map_cons, List.sum_cons]
    push_cast
    ring

theorem sum_map_div {α : Type} (f : α → ℚ) (l : List α) (n : ℚ) :
    (l.map (fun x => f x / n)).sum = (l.map f).sum / n := by
  induction l with
  | nil => simp
  | cons x l ih => rw [List.map_cons, List.sum_cons, ih, List.map_cons, List.sum_cons, add_div]

/-- With exact arithmetic the normalised initial vocabulary has, for every key of the map
in the order visited, the count divided by the number of word occurrences. -/
theorem normalize_initVocab_exact (rt : Runtime ℚ) (hex : ExactArith rt)
    (corpus : List GoString) :
    normalize rt (initVocab rt (countWords corpus))
      = (rt.rangeOrder (countWords corpus)).map
          (fun wc => ⟨0, wc.1, ((wc.2 : Int) : ℚ) / ((corpusWords corpus).length : ℚ)⟩) := by
  obtain ⟨hof, hadd, hdiv⟩ := hex
  have hfun : (fun (total : ℚ) (v : Subword ℚ) => rt.add total v.Probability)
      = (fun total v => total + v.Probability) := by
    funext t v; exact hadd _ _
  have htotal : (initVocab rt (countWords corpus)).foldl
      (fun total v => rt.add total v.Probability) (rt.ofInt 0)
      = ((corpusWords corpus).length : ℚ) := by
    rw [hfun, foldl_add_eq_sum, hof]
    unfold initVocab
    rw [List.map_map]
    have hcomp : ((fun v : Subword ℚ => v.Probability) ∘
        (fun wc : GoString × Int => (⟨0, wc.1, rt.ofInt wc.2⟩ : Subword ℚ)))
        = (fun wc => ((wc.2 : Int) : ℚ)) := by
      funext wc; exact hof _
    rw [hcomp, sum_map_intCast (fun wc : GoString × Int => wc.2),
      ((rt.rangeOrder_perm (countWords corpus)).map Prod.snd).sum_eq, countWords_sum]
    simp
  unfold normalize
  simp only [htotal]
  unfold initVocab
  rw [List.map_map]
  apply List.map_congr_left
  intro wc _
  simp only [Function.comp_apply, hdiv, hof]

theorem assignIDs_map_Probability {F : Type} (l : List (Subword F)) (k : Nat) :
    (assignIDs k l).map (fun s => s.Probability) = l.map (fun s => s.Probability) := by
  induction l generalizing k with
  | nil => rfl
  | cons s l ih => simp [assignIDs, ih]

theorem assignIDs_mem {F : Type} (l : List (Subword F)) (k : Nat) (s : Subword F)
    (h : s ∈ assignIDs k l) :
    ∃ s' ∈ l, s.Piece = s'.Piece ∧ s.Probability = s'.Probability := by
  induction l generalizing k with
  | nil => simp [assignIDs] at h
  | cons s₀ l ih =>
    simp only [assignIDs, List.mem_cons] at h
    rcases h with heq | hmem
    · exact ⟨s₀, by simp, by rw [heq], by rw [heq]⟩
    · obtain ⟨s', hs', hp⟩ := ih (k + 1) hmem
      exact ⟨s', by simp [hs'], hp⟩

/-- C15: frequency estimation without merges, in exact arithmetic.  For every corpus with
`d ≥ 1` distinct words and every `vocabSize` with `d ≤ vocabSize-1`, the returned
vocabulary without its final `<unk>` entry holds every distinct word exactly once and
nothing else; the probability of a word is its number of occurrences divided by the number
of word occurrences of the corpus, and these probabilities add up to 1. -/
theorem C15_TrainUnigramModel_frequencies (rt : Runtime ℚ) (hex : ExactArith rt)
    (corpus : List GoString) (vocabSize : Int) (hd : 1 ≤ (distinctWords corpus).length)
    (hfit : ((distinctWords corpus).length : Int) ≤ vocabSize - 1)
    (hmax : vocabSize < 2 ^ 63) :
    ∃ vocab, TrainUnigramModel rt corpus vocabSize = Run.done vocab ∧
      vocab.getLast?.map (fun s => s.Piece) = some unkPiece ∧
      List.Perm (vocab.dropLast.map (fun s => s.Piece)) (distinctWords corpus) ∧
      (∀ s ∈ vocab.dropLast, s.Probability
        = ((corpusWords corpus).count s.Piece : ℚ) / ((corpusWords corpus).length : ℚ)) ∧
      (vocab.dropLast.map (fun s => s.Probability)).sum = 1 := by
  have hrun := TrainUnigramModel_no_merge rt corpus vocabSize (by omega) hmax hfit
  have hnorm := normalize_initVocab_exact rt hex corpus
  have hpos : 0 < (corpusWords corpus).length := by
    have h1 : (distinctWords corpus).length ≤ (corpusWords corpus).length :=
      (List.dedup_sublist _).length_le
    omega
  have hN : ((corpusWords corpus).length : ℚ) ≠ 0 := by
    exact_mod_cast (Nat.pos_iff_ne_zero.1 hpos)
  refine ⟨_, hrun, ?_, ?_, ?_, ?_⟩
  · rw [← List.getLast?_map, assignIDs_map_Piece, List.map_append, List.map_singleton,
      List.getLast?_concat]
  · rw [assignIDs_dropLast, assignIDs_map_Piece]
    exact initial_pieces_perm rt corpus
  · intro s hs
    rw [assignIDs_dropLast] at hs
    obtain ⟨s', hs', hpiece, hprob⟩ := assignIDs_mem _ 0 s hs
    rw [hnorm, List.mem_map] at hs'
    obtain ⟨wc, hwc, hwc'⟩ := hs'
    have hmem : (wc.1, wc.2) ∈ countWords corpus :=
      (rt.rangeOrder_perm (countWords corpus)).mem_iff.1 hwc
    have hc := countWords_mem corpus wc.1 wc.2 hmem
    rw [hprob, hpiece, ← hwc']
    simp only
    rw [hc]
    push_cast
    rfl
  · rw [assignIDs_dropLast, assignIDs_map_Probability, hnorm, List.map_map]
    have hcomp : ((fun s : Subword ℚ => s.Probability) ∘
        (fun wc : GoString × Int =>
          (⟨0, wc.1, ((wc.2 : Int) : ℚ) / ((corpusWords corpus).length : ℚ)⟩ : Subword ℚ)))
        = (fun wc => ((wc.2 : Int) : ℚ) / ((corpusWords corpus).length : ℚ)) := rfl
    rw [hcomp, sum_map_div (fun wc : GoString × Int => ((wc.2 : Int) : ℚ)),
      sum_map_intCast (fun wc : GoString × Int => wc.2),
      ((rt.rangeOrder_perm (countWords corpus)).map Prod.snd).sum_eq, countWords_sum]
    push_cast
    exact div_self hN

/-- Witness of C15: the corpus `["a a b"]` with `vocabSize = 3`, on the runtime over `ℚ`. -/
theorem C15_TrainUnigramModel_frequencies_witness :
    ∃ vocab, TrainUnigramModel ratRuntime [[97, 32, 97, 32, 98]] 3 = Run.done vocab ∧
      vocab.getLast?.map (fun s => s.Piece) = some unkPiece ∧
      List.Perm (vocab.dropLast.map (fun s => s.Piece))
        (distinctWords [[97, 32, 97, 32, 98]]) ∧
      (∀ s ∈ vocab.dropLast, s.Probability
        = ((corpusWords [[97, 32, 97, 32, 98]]).count s.Piece : ℚ)
          / ((corpusWords [[97, 32, 97, 32, 98]]).length : ℚ)) ∧
      (vocab.dropLast.map (fun s => s.Probability)).sum = 1 :=
  C15_TrainUnigramModel_frequencies ratRuntime
    ⟨fun _ => rfl, fun _ _ => rfl, fun _ _ => rfl⟩ [[97, 32, 97, 32, 98]] 3 (by decide)
    (by decide) (by norm_num)

end SentencePiece
